import Mathlib

/-!
# Verification of the Smart City Transportation Optimization System core

Shallow embedding of the core algorithms of the repository
(`src/algorithms/time_dijkstra.py`, `src/algorithms/dijkstra.py`,
`src/algorithms/a_star.py`, `src/algorithms/dp_schedule.py`,
`src/utils/helpers.py`, `src/controller/controller.py`) together with
proofs and refutations of the specification's claims about them.

Conventions used throughout:
* Python floats are modelled as rationals (`ℚ`); `float('inf')` as `⊤` in
  `WithTop ℚ`.
* A Python function that can raise an exception is modelled as returning
  `Option`/`Except`, with `none`/`error` marking the exceptional exit.
* Python `while` loops are modelled by fuel-indexed recursion returning
  `Option`; `none` marks fuel exhaustion, so every theorem about a loop's
  result quantifies over results actually returned.
-/

namespace TimeDijkstra

/-! ## `calculate_time_weight` (src/algorithms/time_dijkstra.py)

The Python function reads edge attributes through `dict.get` with
defaults, so each attribute is modelled as an `Option ℚ` and the
defaults through `Option.getD`. -/

structure TimeEdgeData where
  weight : Option ℚ
  condition : Option ℚ
  capacity : Option ℚ
  traffic_flow : Option ℚ
  deriving DecidableEq

/-- The `traffic_multipliers.get(time_of_day, 0.7)` table of
`calculate_time_weight`: four named buckets, defaulting to `0.7`. -/
def trafficMultiplier (time_of_day : String) : ℚ :=
  if time_of_day = "Morning Rush" then 1/2
  else if time_of_day = "Evening Rush" then 2/5
  else if time_of_day = "Midday" then 4/5
  else if time_of_day = "Night" then 1
  else 7/10

/-- Embedding of `calculate_time_weight`.  The two divisions
(`current_flow / capacity` and `distance / actual_speed`) raise
`ZeroDivisionError` in Python when the divisor is `0`; both exits are
modelled by `none`. -/
def calculate_time_weight (edge_data : TimeEdgeData) (time_of_day : String) :
    Option ℚ :=
  let base_speed : ℚ := 60
  let traffic_mult := trafficMultiplier time_of_day
  let condition := edge_data.condition.getD 10
  let condition_mult := condition / 10
  let capacity := edge_data.capacity.getD 1000
  if capacity = 0 then none
  else
    let current_flow := edge_data.traffic_flow.getD (capacity * (1/2))
    let capacity_mult := max (3/10 : ℚ) (1 - current_flow / capacity)
    let actual_speed := base_speed * traffic_mult * condition_mult * capacity_mult
    if actual_speed = 0 then none
    else
      let distance := edge_data.weight.getD 1
      some ((distance / actual_speed) * 60)

theorem trafficMultiplier_pos (time_of_day : String) :
    0 < trafficMultiplier time_of_day := by
  unfold trafficMultiplier
  split_ifs <;> norm_num

theorem calculate_time_weight_total (e : TimeEdgeData) (time_of_day : String)
    (dist cond cap : ℚ) (hd : e.weight = some dist) (hc : e.condition = some cond)
    (hc1 : 1 ≤ cond) (hcap : e.capacity = some cap) (hcappos : 0 < cap) :
    calculate_time_weight e time_of_day =
      some ((dist / (60 * trafficMultiplier time_of_day * (cond / 10) *
        max (3/10 : ℚ) (1 - e.traffic_flow.getD (cap * (1/2)) / cap))) * 60) := by
  have hcap0 : cap ≠ 0 := ne_of_gt hcappos
  have hcond0 : (0 : ℚ) < cond := lt_of_lt_of_le one_pos hc1
  unfold calculate_time_weight
  simp only [hd, hc, hcap, Option.getD_some]
  rw [if_neg hcap0]
  have hcpos : 0 < cond / 10 := by positivity
  have hmax : (0 : ℚ) < max (3/10 : ℚ) (1 - e.traffic_flow.getD (cap * (1/2)) / cap) :=
    lt_max_of_lt_left (by norm_num)
  have hspeed : 60 * trafficMultiplier time_of_day * (cond / 10) *
      max (3/10 : ℚ) (1 - e.traffic_flow.getD (cap * (1/2)) / cap) ≠ 0 := by
    have := trafficMultiplier_pos time_of_day
    positivity
  rw [if_neg hspeed]

/-- C4 (counterexample): the claim asserts totality for every edge with
distance `> 0`, condition in `1..10` and capacity `≥ 0`, but an edge with
`capacity = 0` makes `current_flow / capacity` raise `ZeroDivisionError`
(modelled as `none`), even though its distance is `1 > 0` and its
condition is `8`. -/
theorem C4_capacity_zero_fails :
    calculate_time_weight ⟨some 1, some 8, some 0, none⟩ "Night" = none := by
  decide

/-- C4 (amended): the time-cost model `calculate_time_weight` is pure and
total for every edge record with distance `≥ 0`, condition an integer
`1..10` and capacity `> 0` (not merely `≥ 0`): it returns a travel time
for every `time_of_day` string, and an edge of distance `0` yields
time `0`. -/
theorem C4_time_weight_total (e : TimeEdgeData) (time_of_day : String)
    (dist cond cap : ℚ)
    (hd : e.weight = some dist) (hc : e.condition = some cond)
    (hc1 : 1 ≤ cond) (hc10 : cond ≤ 10)
    (hcap : e.capacity = some cap) (hcappos : 0 < cap) :
    (∃ t, calculate_time_weight e time_of_day = some t) ∧
      (dist = 0 → calculate_time_weight e time_of_day = some 0) := by
  have h := calculate_time_weight_total e time_of_day dist cond cap hd hc hc1 hcap hcappos
  refine ⟨⟨_, h⟩, fun h0 => ?_⟩
  rw [h, h0]
  norm_num

theorem C4_time_weight_total_witness :
    (⟨some 0, some 8, some 1000, none⟩ : TimeEdgeData).weight = some 0 ∧
      calculate_time_weight ⟨some 0, some 8, some 1000, none⟩ "Morning Rush" = some 0 := by
  refine ⟨rfl, ?_⟩
  exact (C4_time_weight_total ⟨some 0, some 8, some 1000, none⟩ "Morning Rush" 0 8 1000
    rfl rfl (by norm_num) (by norm_num) rfl (by norm_num)).2 rfl

/-- C10: for any `time_of_day` string other than the four named buckets,
`calculate_time_weight` applies the default traffic multiplier `0.7`,
and the travel-time computation is defined for such arbitrary strings
(given data-model-valid fields with positive capacity). -/
theorem C10_default_multiplier (time_of_day : String)
    (h1 : time_of_day ≠ "Morning Rush") (h2 : time_of_day ≠ "Evening Rush")
    (h3 : time_of_day ≠ "Midday") (h4 : time_of_day ≠ "Night") :
    trafficMultiplier time_of_day = 7/10 ∧
      ∀ (e : TimeEdgeData) (dist cond cap : ℚ),
        e.weight = some dist → e.condition = some cond → 1 ≤ cond → cond ≤ 10 →
        e.capacity = some cap → 0 < cap →
        (calculate_time_weight e time_of_day).isSome := by
  constructor
  · unfold trafficMultiplier
    rw [if_neg h1, if_neg h2, if_neg h3, if_neg h4]
  · intro e dist cond cap hd hc hcl hcu hcap hcappos
    rw [calculate_time_weight_total e time_of_day dist cond cap hd hc hcl hcap hcappos]
    rfl

theorem C10_default_multiplier_witness :
    trafficMultiplier "Lazy Sunday" = 7/10 ∧
      (calculate_time_weight ⟨some 5, some 8, some 1000, none⟩ "Lazy Sunday").isSome := by
  have h := C10_default_multiplier "Lazy Sunday"
    (by decide) (by decide) (by decide) (by decide)
  exact ⟨h.1, h.2 ⟨some 5, some 8, some 1000, none⟩ 5 8 1000 rfl rfl
    (by norm_num) (by norm_num) rfl (by norm_num)⟩

end TimeDijkstra

namespace TransferPoints

/-! ## `PublicTransitOptimizer._identify_transfer_points`
(src/algorithms/dp_schedule.py)

A route is modelled as its cleaned list of stop ids (the result of
splitting the `Stops` / `Stations` column on commas and stripping
whitespace); the set of valid nodes as a `Finset String`. -/

/-- The accumulation `bus_stops.update(stop for stop in stops if stop in
self.valid_nodes)` over all bus routes (identically for metro
stations). -/
def collectStops (valid : Finset String) (routes : List (List String)) :
    Finset String :=
  routes.foldl (fun acc stops => acc ∪ (stops.filter (· ∈ valid)).toFinset) ∅

/-- Embedding of `_identify_transfer_points`: the intersection of the
valid bus stops and the valid metro stations. -/
def identify_transfer_points (bus_routes metro_lines : List (List String))
    (valid : Finset String) : Finset String :=
  (collectStops valid bus_routes) ∩ (collectStops valid metro_lines)

theorem mem_collectStops (valid : Finset String) (routes : List (List String))
    (s : String) :
    s ∈ collectStops valid routes ↔ ∃ r ∈ routes, s ∈ r ∧ s ∈ valid := by
  suffices h : ∀ (acc : Finset String),
      s ∈ routes.foldl (fun acc stops => acc ∪ (stops.filter (· ∈ valid)).toFinset) acc ↔
        s ∈ acc ∨ ∃ r ∈ routes, s ∈ r ∧ s ∈ valid by
    have := h ∅
    simpa [collectStops] using this
  induction routes with
  | nil => intro acc; simp
  | cons r rest ih =>
      intro acc
      rw [List.foldl_cons, ih]
      simp only [Finset.mem_union, List.mem_toFinset, List.mem_filter,
        List.mem_cons, decide_eq_true_eq]
      constructor
      · rintro (⟨h | ⟨h1, h2⟩⟩ | ⟨q, hq, hs, hv⟩)
        · exact Or.inl h
        · exact Or.inr ⟨r, Or.inl rfl, h1, h2⟩
        · exact Or.inr ⟨q, Or.inr hq, hs, hv⟩
      · rintro (h | ⟨q, hq | hq, hs, hv⟩)
        · exact Or.inl (Or.inl h)
        · exact Or.inl (Or.inr ⟨hq ▸ hs, hv⟩)
        · exact Or.inr ⟨q, hq, hs, hv⟩

/-- C7: the computed transfer points are exactly the stops served by at
least one bus route and at least one metro line (within the valid node
set); in particular for bus routes covering `{A,B,C}` and metro lines
covering `{B,C,D}` the result is `{B,C}`. -/
theorem C7_transfer_points_correct :
    (∀ (bus_routes metro_lines : List (List String)) (valid : Finset String)
        (s : String),
        s ∈ identify_transfer_points bus_routes metro_lines valid ↔
          (∃ r ∈ bus_routes, s ∈ r) ∧ (∃ l ∈ metro_lines, s ∈ l) ∧ s ∈ valid) ∧
      identify_transfer_points [["A", "B", "C"]] [["B", "C", "D"]]
          {"A", "B", "C", "D"} = {"B", "C"} := by
  constructor
  · intro bus_routes metro_lines valid s
    unfold identify_transfer_points
    rw [Finset.mem_inter, mem_collectStops, mem_collectStops]
    constructor
    · rintro ⟨⟨r, hr, hs, hv⟩, ⟨l, hl, hs', _⟩⟩
      exact ⟨⟨r, hr, hs⟩, ⟨l, hl, hs'⟩, hv⟩
    · rintro ⟨⟨r, hr, hs⟩, ⟨l, hl, hs'⟩, hv⟩
      exact ⟨⟨r, hr, hs, hv⟩, ⟨l, hl, hs', hv⟩⟩
  · decide

end TransferPoints

namespace BuildMap

/-! ## `build_map` (src/utils/helpers.py)

Only the graph-construction part of `build_map` is relevant here: for
each road record an edge is added iff both endpoint ids are keys of
`node_positions` (the valid node set, modelled as a `Finset String`
since dict keys are unique); malformed records are skipped silently.
The map-drawing side effects are irrelevant to the graph and omitted;
`scenario=None` is assumed (no road filtering). -/

structure RoadRec where
  fromID : String
  toID : String
  name : String
  distance : ℚ
  capacity : ℚ
  condition : ℚ
  deriving DecidableEq

structure RoadEdgeAttrs where
  name : String
  weight : ℚ
  capacity : ℚ
  condition : ℚ
  has_traffic_light : Bool
  deriving DecidableEq

/-- Whether a traffic light (given as a list of `(FromID, ToID)` pairs)
matches a road in either direction. -/
def hasLight (lights : List (String × String)) (fromID toID : String) : Bool :=
  lights.any (fun l => (l.1 = fromID ∧ l.2 = toID) ∨ (l.1 = toID ∧ l.2 = fromID))

/-- The edges added to the graph by `build_map`: one edge per road
record whose endpoints are both valid, keyed by the `(FromID, ToID)`
pair and carrying the `name`/`weight`/`capacity`/`condition`
attributes.  Records with an invalid endpoint are dropped silently. -/
def build_map_edges (lights : List (String × String)) (roads : List RoadRec)
    (node_positions : Finset String) : List ((String × String) × RoadEdgeAttrs) :=
  roads.filterMap (fun r =>
    if r.fromID ∈ node_positions ∧ r.toID ∈ node_positions then
      some ((r.fromID, r.toID),
        ⟨r.name, r.distance, r.capacity, r.condition, hasLight lights r.fromID r.toID⟩)
    else none)

/-- C8: rebuilding the graph after removing one node `x` from the valid
node set drops exactly the edges having `x` as an endpoint — every road
record whose two endpoints both remain valid still yields its edge with
unchanged attributes, and roads with an invalidated endpoint are
dropped silently (no error).  In particular, if `x` is an endpoint of
exactly one built edge, exactly that edge disappears. -/
theorem C8_rebuild_drops_exactly (lights : List (String × String))
    (roads : List RoadRec) (node_positions : Finset String) (x : String) :
    build_map_edges lights roads (node_positions.erase x) =
      (build_map_edges lights roads node_positions).filter
        (fun e => ¬(e.1.1 = x ∨ e.1.2 = x)) := by
  induction roads with
  | nil => rfl
  | cons r rest ih =>
      unfold build_map_edges at ih ⊢
      rw [List.filterMap_cons, List.filterMap_cons]
      by_cases hv : r.fromID ∈ node_positions ∧ r.toID ∈ node_positions
      · by_cases hx : r.fromID = x ∨ r.toID = x
        · have : ¬(r.fromID ∈ node_positions.erase x ∧ r.toID ∈ node_positions.erase x) := by
            rcases hx with hx | hx
            · exact fun h => (Finset.mem_erase.mp h.1).1 hx
            · exact fun h => (Finset.mem_erase.mp h.2).1 hx
          rw [if_neg this, if_pos hv, List.filter_cons, if_neg (by simp [hx])]
          exact ih
        · push_neg at hx
          have : r.fromID ∈ node_positions.erase x ∧ r.toID ∈ node_positions.erase x :=
            ⟨Finset.mem_erase.mpr ⟨hx.1, hv.1⟩, Finset.mem_erase.mpr ⟨hx.2, hv.2⟩⟩
          rw [if_pos this, if_pos hv, List.filter_cons]
          have hx' : ¬(r.fromID = x ∨ r.toID = x) := by
            rintro (h | h)
            · exact hx.1 h
            · exact hx.2 h
          rw [if_pos (by simpa using hx'), ih]
      · have : ¬(r.fromID ∈ node_positions.erase x ∧ r.toID ∈ node_positions.erase x) := by
          intro h
          exact hv ⟨Finset.mem_of_mem_erase h.1, Finset.mem_of_mem_erase h.2⟩
        rw [if_neg this, if_neg hv]
        exact ih

end BuildMap

namespace RouteDetails

/-! ## `TransportationController._calculate_route_details`
(src/controller/controller.py)

The loop accumulating travel time, waiting time, transfers and fare
over the consecutive edges of a multimodal path.  The edge for a
consecutive stop pair (`graph[path[i]][path[i+1]][0]`) is modelled by a
lookup function `edgeOf`.  The per-step `steps` list and the
geographic `total_distance` (whose square root plays no role in the
fare) are omitted; all other accumulators are embedded. -/

structure TransitEdge where
  type : String
  route_id : String
  interval : ℚ
  travel_time : ℚ

structure RouteState where
  total_travel_time : ℚ
  total_waiting_time : ℚ
  total_cost : ℚ
  num_transfers : ℕ
  current_line : Option String
  current_mode : Option String
  metro_stops : ℕ

/-- Python truthiness of the `current_line` value (`None` and the empty
string are falsy). -/
def truthy : Option String → Prop
  | none => False
  | some s => s ≠ ""

instance : DecidablePred truthy := by
  intro o
  cases o with
  | none => exact isFalse id
  | some s => exact inferInstanceAs (Decidable (s ≠ ""))

/-- One iteration of the `for i in range(len(path) - 1)` loop of
`_calculate_route_details`, for loop index `i` and edge data `e`. -/
def detailsStep (i : ℕ) (e : TransitEdge) (s : RouteState) : RouteState :=
  let s : RouteState := { s with total_travel_time := s.total_travel_time + e.travel_time }
  let s : RouteState :=
    if i = 0 ∨ (truthy s.current_line ∧ s.current_line ≠ some e.route_id) then
      let s : RouteState :=
        { s with total_waiting_time := s.total_waiting_time + e.interval / 2 }
      if 0 < i then
        let s : RouteState := { s with num_transfers := s.num_transfers + 1 }
        if e.type = "bus" then { s with total_cost := s.total_cost + 12 }
        else if e.type = "metro" then
          if s.current_mode ≠ some "metro" then
            { s with metro_stops := 0, total_cost := s.total_cost + 8 }
          else s
        else s
      else s
    else s
  let s : RouteState := { s with current_line := some e.route_id }
  let s : RouteState :=
    if i = 0 then
      if e.type = "bus" then { s with total_cost := s.total_cost + 12 }
      else if e.type = "metro" then { s with total_cost := s.total_cost + 8 }
      else s
    else s
  let s : RouteState :=
    if e.type = "metro" then
      let s : RouteState := { s with metro_stops := s.metro_stops + 1 }
      if s.metro_stops = 10 then { s with total_cost := s.total_cost + 2 }
      else if s.metro_stops = 17 then { s with total_cost := s.total_cost + 5 }
      else if s.metro_stops = 24 then { s with total_cost := s.total_cost + 5 }
      else s
    else s
  { s with current_mode := some e.type }

def calcFold (i : ℕ) (s : RouteState) : List TransitEdge → RouteState
  | [] => s
  | e :: rest => calcFold (i + 1) (detailsStep i e s) rest

/-- The edge data along the consecutive pairs of a path. -/
def consecEdges (edgeOf : String → String → TransitEdge) (path : List String) :
    List TransitEdge :=
  (path.zip path.tail).map (fun p => edgeOf p.1 p.2)

/-- Embedding of `_calculate_route_details` (accumulators only). -/
def calculate_route_details (edgeOf : String → String → TransitEdge)
    (path : List String) : RouteState :=
  calcFold 0 ⟨0, 0, 0, 0, none, none, 0⟩ (consecEdges edgeOf path)

/-- The fare increment applied when the consecutive-metro-stop counter
reaches `m`. -/
def inc (m : ℕ) : ℚ :=
  if m = 10 then 2 else if m = 17 then 5 else if m = 24 then 5 else 0

/-- Evaluation of one loop iteration in the steady metro state (index
`k ≠ 0`, edge on the same metro line the rider is already on). -/
theorem detailsStep_metro_steady (k : ℕ) (hk : k ≠ 0) (e : TransitEdge)
    (hty : e.type = "metro") (L : String) (hrid : e.route_id = L)
    (tt tw c : ℚ) (nt m : ℕ) :
    detailsStep k e ⟨tt, tw, c, nt, some L, some "metro", m⟩ =
      ⟨tt + e.travel_time, tw, c + inc (m + 1), nt, some L, some "metro", m + 1⟩ := by
  have hmb : ¬("metro" = "bus") := by decide
  unfold detailsStep
  rw [hrid, hty]
  simp only [ne_eq, not_true_eq_false, and_false, or_false, if_neg hk, if_neg hmb,
    if_pos rfl, inc]
  split_ifs <;> simp_all

/-- Evaluation of the first loop iteration (index `0`) on a metro
edge, from the initial accumulator state. -/
theorem detailsStep_metro_first (e : TransitEdge) (hty : e.type = "metro")
    (L : String) (hrid : e.route_id = L) :
    detailsStep 0 e ⟨0, 0, 0, 0, none, none, 0⟩ =
      ⟨e.travel_time, e.interval / 2, 8, 0, some L, some "metro", 1⟩ := by
  have hmb : ¬("metro" = "bus") := by decide
  unfold detailsStep
  rw [hrid, hty]
  norm_num [truthy, hmb, inc]

theorem metro_fold_cost (L : String) :
    ∀ (es : List TransitEdge) (k : ℕ), 1 ≤ k →
      (∀ e ∈ es, e.type = "metro" ∧ e.route_id = L) →
      ∀ (tt tw c : ℚ) (nt : ℕ),
        (calcFold k ⟨tt, tw, c, nt, some L, some "metro", k⟩ es).total_cost =
          c + ((List.range es.length).map (fun j => inc (k + j + 1))).sum := by
  intro es
  induction es with
  | nil => intro k hk hme tt tw c nt; simp [calcFold]
  | cons e rest ih =>
      intro k hk hme tt tw c nt
      obtain ⟨hty, hrid⟩ := hme e (List.mem_cons_self e rest)
      have hk0 : k ≠ 0 := Nat.one_le_iff_ne_zero.mp hk
      rw [calcFold, detailsStep_metro_steady k hk0 e hty L hrid tt tw c nt k,
        ih (k + 1) (Nat.le_succ_of_le hk)
        (fun e' he' => hme e' (List.mem_cons_of_mem e he')) _ _ _ _]
      rw [List.length_cons, List.range_succ_eq_map, List.map_cons, List.sum_cons,
        List.map_map]
      have hfe : ((fun j => inc (k + j + 1)) ∘ Nat.succ) = fun j => inc (k + 1 + j + 1) := by
        funext j
        simp only [Function.comp_apply]
        congr 1
        omega
      rw [hfe]
      simp only [Nat.add_zero]
      ring

/-- The cost of a metro-only single-line itinerary with `n ≥ 1`
segments. -/
theorem metro_only_cost (edgeOf : String → String → TransitEdge)
    (path : List String) (L : String)
    (hme : ∀ p ∈ path.zip path.tail,
      (edgeOf p.1 p.2).type = "metro" ∧ (edgeOf p.1 p.2).route_id = L)
    (hne : path.zip path.tail ≠ []) :
    (calculate_route_details edgeOf path).total_cost =
      8 + ((List.range ((path.zip path.tail).length - 1)).map
        (fun j => inc (j + 2))).sum := by
  have hme' : ∀ e ∈ consecEdges edgeOf path, e.type = "metro" ∧ e.route_id = L := by
    intro e he
    obtain ⟨p, hp, rfl⟩ := List.mem_map.mp he
    exact hme p hp
  unfold calculate_route_details
  obtain ⟨e0, rest, hes⟩ : ∃ e0 rest, consecEdges edgeOf path = e0 :: rest := by
    cases h : consecEdges edgeOf path with
    | nil =>
        exfalso
        apply hne
        have := congrArg List.length h
        simp only [consecEdges, List.length_map, List.length_nil] at this
        exact List.eq_nil_of_length_eq_zero this
    | cons a l => exact ⟨a, l, rfl⟩
  rw [hes]
  obtain ⟨hty, hrid⟩ := hme' e0 (hes ▸ List.mem_cons_self e0 rest)
  rw [calcFold, detailsStep_metro_first e0 hty L hrid,
    metro_fold_cost L rest 1 le_rfl
      (fun e' he' => hme' e' (hes ▸ List.mem_cons_of_mem e0 he')) _ _ _ _]
  have hlen : rest.length = (path.zip path.tail).length - 1 := by
    have := congrArg List.length hes
    simp only [consecEdges, List.length_map, List.length_cons] at this
    omega
  rw [hlen]
  have hfe : (fun j => inc (1 + j + 1)) = fun j => inc (j + 2) := by
    funext j
    congr 1
    omega
  rw [hfe]

/-- C5: a 25-stop metro-only itinerary on a single line is costed at the
8-unit base fare plus the increments at the 10th, 17th and 24th
consecutive metro stop (8+2+5+5 = 20), while a 9-stop one pays only the
8-unit base fare; the former is strictly more expensive. -/
theorem C5_fare_monotonicity
    (edgeOf₁ edgeOf₂ : String → String → TransitEdge)
    (path₁ path₂ : List String) (L₁ L₂ : String)
    (hme₁ : ∀ p ∈ path₁.zip path₁.tail,
      (edgeOf₁ p.1 p.2).type = "metro" ∧ (edgeOf₁ p.1 p.2).route_id = L₁)
    (hme₂ : ∀ p ∈ path₂.zip path₂.tail,
      (edgeOf₂ p.1 p.2).type = "metro" ∧ (edgeOf₂ p.1 p.2).route_id = L₂)
    (hlen₁ : path₁.length = 25) (hlen₂ : path₂.length = 9) :
    (calculate_route_details edgeOf₁ path₁).total_cost = 20 ∧
      (calculate_route_details edgeOf₂ path₂).total_cost = 8 ∧
      (calculate_route_details edgeOf₂ path₂).total_cost <
        (calculate_route_details edgeOf₁ path₁).total_cost := by
  have hz : ∀ (l : List String), (l.zip l.tail).length = l.length - 1 := by
    intro l
    rw [List.length_zip, List.length_tail]
    omega
  have hz₁ : (path₁.zip path₁.tail).length = 24 := by rw [hz, hlen₁]
  have hz₂ : (path₂.zip path₂.tail).length = 8 := by rw [hz, hlen₂]
  have h₁ := metro_only_cost edgeOf₁ path₁ L₁ hme₁
    (by intro h; rw [h] at hz₁; simp at hz₁)
  have h₂ := metro_only_cost edgeOf₂ path₂ L₂ hme₂
    (by intro h; rw [h] at hz₂; simp at hz₂)
  rw [hz₁] at h₁
  rw [hz₂] at h₂
  have hs₁ : ((List.range (24 - 1)).map (fun j => inc (j + 2))).sum = (12 : ℚ) := by
    norm_num [List.range_succ, inc]
  have hs₂ : ((List.range (8 - 1)).map (fun j => inc (j + 2))).sum = (0 : ℚ) := by
    norm_num [List.range_succ, inc]
  rw [hs₁] at h₁
  rw [hs₂] at h₂
  rw [h₁, h₂]
  norm_num

theorem C5_fare_monotonicity_witness :
    (calculate_route_details (fun _ _ => ⟨"metro", "M1", 10, 3⟩)
        ((List.range 25).map toString)).total_cost = 20 ∧
      (calculate_route_details (fun _ _ => ⟨"metro", "M1", 10, 3⟩)
        ((List.range 9).map toString)).total_cost = 8 ∧
      (calculate_route_details (fun _ _ => ⟨"metro", "M1", 10, 3⟩)
          ((List.range 9).map toString)).total_cost <
        (calculate_route_details (fun _ _ => ⟨"metro", "M1", 10, 3⟩)
          ((List.range 25).map toString)).total_cost :=
  C5_fare_monotonicity (fun _ _ => ⟨"metro", "M1", 10, 3⟩)
    (fun _ _ => ⟨"metro", "M1", 10, 3⟩)
    ((List.range 25).map toString) ((List.range 9).map toString) "M1" "M1"
    (fun _ _ => ⟨rfl, rfl⟩) (fun _ _ => ⟨rfl, rfl⟩)
    (by simp) (by simp)

end RouteDetails

namespace DPSchedule

/-! ## `PublicTransitOptimizer._dp_allocate` (src/algorithms/dp_schedule.py)

The DP table is built row by row; row `i` depends on the first `i`
route values, so rows are defined by recursion on the *reversed* prefix
of the value list.  The backtrack walks `i = n..1`, which is structural
recursion on the reversed value list.  The Python `allocation` dict is
modelled as an association list with update-or-append semantics
(`dictInsert`), matching dict insertion-order-preserving overwrite. -/

/-- `dp[i][u]` as a function of `dp[i-1]` and the `i`-th route value
`v`: the cell starts at `0` and is raised by every admissible
allocation `alloc ∈ [min_units, min(u, max_per_route)]`, with the
diminishing-returns cap `value * min(alloc, 10)`. -/
def dpCell (prev : ℕ → ℚ) (v : ℚ) (min_units max_per_route u : ℕ) : ℚ :=
  ((List.range' min_units (min u max_per_route + 1 - min_units)).map
    (fun alloc => prev (u - alloc) + v * (min alloc 10 : ℕ))).foldl max 0

/-- `dp[i]` where `revVals` is the reversed list of the first `i` route
values (so the head is `values[i-1]`). -/
def dpRow (min_units max_per_route : ℕ) : List ℚ → ℕ → ℚ
  | [], _ => 0
  | v :: rest, u => dpCell (dpRow min_units max_per_route rest) v min_units max_per_route u

/-- The backtrack's inner `for alloc in range(min(remaining,
max_per_route), min_units-1, -1)` search: the first (largest) `alloc`
whose DP decomposition matches, if any. -/
def findAlloc (dpI dpIm1 : ℕ → ℚ) (v : ℚ) (min_units max_per_route : ℕ)
    (remaining : ℤ) : Option ℕ :=
  if min remaining (max_per_route : ℤ) < (min_units : ℤ) then none
  else
    ((List.range' min_units ((min remaining (max_per_route : ℤ)).toNat + 1 - min_units)).reverse).find?
      (fun alloc => dpI remaining.toNat =
        dpIm1 (remaining.toNat - alloc) + v * (min alloc 10 : ℕ))

/-- Python dict assignment `allocation[route_id] = alloc`: overwrite in
place if the key exists, else append. -/
def dictInsert (d : List (String × ℤ)) (k : String) (x : ℤ) : List (String × ℤ) :=
  if d.any (fun p => p.1 = k) then
    d.map (fun p => if p.1 = k then (k, x) else p)
  else d ++ [(k, x)]

/-- The backtrack loop over `i = n..1`; `revVals` is the reversed value
list.  `remaining` is a Python int and may go negative (the fallback
branch subtracts `min_units` unconditionally). -/
def backtrackAux (min_units max_per_route : ℕ) :
    List (String × ℚ) → ℤ → List (String × ℤ) → List (String × ℤ)
  | [], _, acc => acc
  | (rid, v) :: rest, remaining, acc =>
      match findAlloc (dpRow min_units max_per_route (v :: rest.map Prod.snd))
          (dpRow min_units max_per_route (rest.map Prod.snd))
          v min_units max_per_route remaining with
      | some alloc =>
          backtrackAux min_units max_per_route rest (remaining - alloc)
            (dictInsert acc rid alloc)
      | none =>
          backtrackAux min_units max_per_route rest (remaining - min_units)
            (dictInsert acc rid min_units)

/-- Embedding of `_dp_allocate`. -/
def dp_allocate (values : List (String × ℚ)) (max_units min_units max_per_route : ℕ) :
    List (String × ℤ) :=
  backtrackAux min_units max_per_route values.reverse (max_units : ℤ) []

def sumUnits (d : List (String × ℤ)) : ℤ := (d.map Prod.snd).sum

theorem le_foldl_max (l : List ℚ) : ∀ a : ℚ, a ≤ l.foldl max a := by
  induction l with
  | nil => intro a; exact le_refl a
  | cons x rest ih =>
      intro a
      rw [List.foldl_cons]
      exact le_trans (le_max_left a x) (ih (max a x))

theorem mem_le_foldl_max (l : List ℚ) : ∀ (a : ℚ) (x : ℚ), x ∈ l → x ≤ l.foldl max a := by
  induction l with
  | nil => intro a x hx; cases hx
  | cons y rest ih =>
      intro a x hx
      rw [List.foldl_cons]
      rcases List.mem_cons.mp hx with rfl | hx
      · exact le_trans (le_max_right a x) (le_foldl_max rest (max a x))
      · exact ih (max a y) x hx

theorem foldl_max_mem (l : List ℚ) : ∀ a : ℚ, l.foldl max a = a ∨ l.foldl max a ∈ l := by
  induction l with
  | nil => intro a; exact Or.inl rfl
  | cons x rest ih =>
      intro a
      rw [List.foldl_cons]
      rcases ih (max a x) with h | h
      · rw [h]
        rcases max_cases a x with ⟨h', _⟩ | ⟨h', _⟩
        · exact Or.inl h'
        · refine Or.inr ?_
          rw [h']
          exact List.mem_cons_self x rest
      · exact Or.inr (List.mem_cons_of_mem x h)

theorem dpRow_nonneg (min_units max_per_route : ℕ) (vs : List ℚ) (u : ℕ) :
    0 ≤ dpRow min_units max_per_route vs u := by
  cases vs with
  | nil => exact le_refl 0
  | cons v rest => exact le_foldl_max _ 0

/-- With `min_units = 0`, every DP cell value is attained by some
admissible allocation (allocation `0` contributes the nonnegative
`prev u`, so the `max` is realised by an element of the list). -/
theorem dpCell_attained (prev : ℕ → ℚ) (v : ℚ) (max_per_route u : ℕ)
    (hprev : ∀ x, 0 ≤ prev x) :
    ∃ alloc ∈ List.range' 0 (min u max_per_route + 1),
      dpCell prev v 0 max_per_route u = prev (u - alloc) + v * (min alloc 10 : ℕ) := by
  set l := (List.range' 0 (min u max_per_route + 1 - 0)).map
    (fun alloc => prev (u - alloc) + v * (min alloc 10 : ℕ)) with hl
  have h0mem : (0 : ℕ) ∈ List.range' 0 (min u max_per_route + 1 - 0) := by
    rw [List.mem_range'_1]
    omega
  have hterm0 : prev u ∈ l := by
    rw [hl]
    refine List.mem_map.mpr ⟨0, h0mem, ?_⟩
    norm_num
  rcases foldl_max_mem l 0 with h | h
  · refine ⟨0, by simpa using h0mem, ?_⟩
    have h1 : prev u ≤ l.foldl max 0 := mem_le_foldl_max l 0 _ hterm0
    rw [h] at h1
    have h2 : prev u = 0 := le_antisymm h1 (hprev u)
    show dpCell prev v 0 max_per_route u = _
    rw [dpCell, ← hl, h]
    norm_num [h2]
  · obtain ⟨alloc, hmem, heq⟩ := List.mem_map.mp h
    exact ⟨alloc, by simpa using hmem, by rw [dpCell, ← hl, ← heq]⟩

theorem findAlloc_bounds (dpI dpIm1 : ℕ → ℚ) (v : ℚ)
    (min_units max_per_route : ℕ) (remaining : ℤ) (alloc : ℕ)
    (h : findAlloc dpI dpIm1 v min_units max_per_route remaining = some alloc) :
    min_units ≤ alloc ∧ alloc ≤ max_per_route ∧ (alloc : ℤ) ≤ remaining := by
  unfold findAlloc at h
  split_ifs at h with htop
  push_neg at htop
  have hmem := List.find?_mem h
  rw [List.mem_reverse, List.mem_range'_1] at hmem
  omega

/-- With `min_units = 0` and a nonnegative remaining budget, the
backtrack's search always finds a matching allocation (no fallback). -/
theorem findAlloc_isSome (rest : List ℚ) (v : ℚ) (max_per_route : ℕ)
    (remaining : ℤ) (hrem : 0 ≤ remaining) :
    (findAlloc (dpRow 0 max_per_route (v :: rest)) (dpRow 0 max_per_route rest) v
      0 max_per_route remaining).isSome := by
  unfold findAlloc
  have htop : ¬ (min remaining (max_per_route : ℤ) < (0 : ℕ)) := by omega
  rw [if_neg htop]
  obtain ⟨alloc, hmem, heq⟩ := dpCell_attained (dpRow 0 max_per_route rest) v
    max_per_route remaining.toNat (dpRow_nonneg 0 max_per_route rest)
  refine List.find?_isSome.mpr ⟨alloc, ?_, ?_⟩
  · rw [List.mem_reverse, List.mem_range'_1]
    rw [List.mem_range'_1] at hmem
    omega
  · rw [decide_eq_true_eq]
    exact heq

theorem mem_dictInsert (d : List (String × ℤ)) (k : String) (x : ℤ)
    (p : String × ℤ) (hp : p ∈ dictInsert d k x) : p ∈ d ∨ p = (k, x) := by
  unfold dictInsert at hp
  split_ifs at hp with hany
  · obtain ⟨q, hq, hqp⟩ := List.mem_map.mp hp
    by_cases hk : q.1 = k
    · rw [if_pos hk] at hqp
      exact Or.inr hqp.symm
    · rw [if_neg hk] at hqp
      exact Or.inl (hqp ▸ hq)
  · rcases List.mem_append.mp hp with h | h
    · exact Or.inl h
    · exact Or.inr (List.mem_singleton.mp h)

theorem dictInsert_keys (d : List (String × ℤ)) (k : String) (x : ℤ) :
    (dictInsert d k x).map Prod.fst =
      if d.any (fun p => p.1 = k) then d.map Prod.fst else d.map Prod.fst ++ [k] := by
  unfold dictInsert
  split_ifs with hany
  · rw [List.map_map]
    refine List.map_congr_left ?_
    intro p _
    by_cases hk : p.1 = k
    · simp [hk]
    · simp [hk]
  · simp

theorem mem_dictInsert_keys (d : List (String × ℤ)) (k : String) (x : ℤ)
    (k' : String) :
    k' ∈ (dictInsert d k x).map Prod.fst ↔ k' ∈ d.map Prod.fst ∨ k' = k := by
  rw [dictInsert_keys]
  split_ifs with hany
  · constructor
    · exact Or.inl
    · rintro (h | rfl)
      · exact h
      · obtain ⟨p, hp, hpk⟩ := List.any_eq_true.mp hany
        rw [decide_eq_true_eq] at hpk
        exact List.mem_map.mpr ⟨p, hp, hpk⟩
  · rw [List.mem_append, List.mem_singleton]

theorem dictInsert_keys_nodup (d : List (String × ℤ)) (k : String) (x : ℤ)
    (hd : (d.map Prod.fst).Nodup) : ((dictInsert d k x).map Prod.fst).Nodup := by
  rw [dictInsert_keys]
  split_ifs with hany
  · exact hd
  · rw [List.nodup_append]
    refine ⟨hd, List.nodup_singleton k, ?_⟩
    intro a ha hb
    rw [List.mem_singleton] at hb
    subst hb
    obtain ⟨p, hp, hpk⟩ := List.mem_map.mp ha
    rw [List.any_eq_true] at hany
    exact hany ⟨p, hp, by rw [decide_eq_true_eq]; exact hpk⟩

theorem nokey_map_id (d : List (String × ℤ)) (k : String) (x : ℤ)
    (h : ∀ p ∈ d, p.1 ≠ k) :
    d.map (fun p => if p.1 = k then (k, x) else p) = d := by
  induction d with
  | nil => rfl
  | cons p rest ih =>
      rw [List.map_cons, if_neg (h p (List.mem_cons_self p rest)),
        ih (fun q hq => h q (List.mem_cons_of_mem p hq))]

theorem overwrite_sum_le (k : String) (x : ℤ) (hx : 0 ≤ x) :
    ∀ (d : List (String × ℤ)), (d.map Prod.fst).Nodup → (∀ p ∈ d, 0 ≤ p.2) →
      sumUnits (d.map (fun p => if p.1 = k then (k, x) else p)) ≤ sumUnits d + x := by
  intro d
  induction d with
  | nil =>
      intro _ _
      simpa [sumUnits] using hx
  | cons p rest ih =>
      intro hnodup hd
      rw [List.map_cons, List.nodup_cons] at hnodup
      by_cases hk : p.1 = k
      · have hrest : rest.map (fun p => if p.1 = k then (k, x) else p) = rest := by
          refine nokey_map_id rest k x ?_
          intro q hq hqk
          exact hnodup.1 (List.mem_map.mpr ⟨q, hq, hqk.trans hk.symm⟩)
        rw [List.map_cons, if_pos hk, hrest]
        have := hd p (List.mem_cons_self p rest)
        simp only [sumUnits, List.map_cons, List.sum_cons]
        omega
      · rw [List.map_cons, if_neg hk]
        have := ih hnodup.2 (fun q hq => hd q (List.mem_cons_of_mem p hq))
        simp only [sumUnits, List.map_cons, List.sum_cons] at this ⊢
        omega

theorem dictInsert_sum_le (d : List (String × ℤ)) (k : String) (x : ℤ)
    (hnodup : (d.map Prod.fst).Nodup) (hd : ∀ p ∈ d, 0 ≤ p.2) (hx : 0 ≤ x) :
    sumUnits (dictInsert d k x) ≤ sumUnits d + x := by
  unfold dictInsert
  split_ifs with hany
  · exact overwrite_sum_le k x hx d hnodup hd
  · simp only [sumUnits, List.map_append, List.sum_append, List.map_cons,
      List.sum_cons, List.map_nil, List.sum_nil]
    omega

/-- Per-route bounds through the whole backtrack, for any
`min_units ≤ max_per_route`. -/
theorem backtrackAux_bounds (min_units max_per_route : ℕ)
    (hmm : min_units ≤ max_per_route) :
    ∀ (revVals : List (String × ℚ)) (remaining : ℤ) (acc : List (String × ℤ)),
      (∀ p ∈ acc, (min_units : ℤ) ≤ p.2 ∧ p.2 ≤ (max_per_route : ℤ)) →
      ∀ p ∈ backtrackAux min_units max_per_route revVals remaining acc,
        (min_units : ℤ) ≤ p.2 ∧ p.2 ≤ (max_per_route : ℤ) := by
  intro revVals
  induction revVals with
  | nil => intro remaining acc hacc p hp; exact hacc p hp
  | cons rv rest ih =>
      intro remaining acc hacc p hp
      obtain ⟨rid, v⟩ := rv
      rw [backtrackAux] at hp
      rcases hfa : findAlloc (dpRow min_units max_per_route (v :: rest.map Prod.snd))
          (dpRow min_units max_per_route (rest.map Prod.snd)) v min_units max_per_route
          remaining with _ | alloc
      · rw [hfa] at hp
        refine ih _ _ ?_ p hp
        intro q hq
        rcases mem_dictInsert _ _ _ q hq with h | h
        · exact hacc q h
        · rw [h]
          refine ⟨le_refl _, ?_⟩
          show (min_units : ℤ) ≤ (max_per_route : ℤ)
          exact_mod_cast hmm
      · rw [hfa] at hp
        obtain ⟨h1, h2, _⟩ := findAlloc_bounds _ _ _ _ _ _ _ hfa
        refine ih _ _ ?_ p hp
        intro q hq
        rcases mem_dictInsert _ _ _ q hq with h | h
        · exact hacc q h
        · rw [h]
          constructor
          · show (min_units : ℤ) ≤ (alloc : ℤ)
            exact_mod_cast h1
          · show (alloc : ℤ) ≤ (max_per_route : ℤ)
            exact_mod_cast h2

/-- Budget bound through the backtrack when `min_units = 0`: the search
always succeeds, `remaining` stays nonnegative, and the dictionary's
total never exceeds the consumed budget. -/
theorem backtrackAux_sum (max_per_route : ℕ) :
    ∀ (revVals : List (String × ℚ)) (remaining : ℤ) (acc : List (String × ℤ)),
      0 ≤ remaining →
      (acc.map Prod.fst).Nodup →
      (∀ p ∈ acc, 0 ≤ p.2) →
      sumUnits (backtrackAux 0 max_per_route revVals remaining acc) ≤
        sumUnits acc + remaining := by
  intro revVals
  induction revVals with
  | nil =>
      intro remaining acc hrem _ _
      rw [backtrackAux]
      omega
  | cons rv rest ih =>
      intro remaining acc hrem hnodup hnn
      obtain ⟨rid, v⟩ := rv
      rw [backtrackAux]
      have hsome := findAlloc_isSome (rest.map Prod.snd) v max_per_route remaining hrem
      rcases hfa : findAlloc (dpRow 0 max_per_route (v :: rest.map Prod.snd))
          (dpRow 0 max_per_route (rest.map Prod.snd)) v 0 max_per_route
          remaining with _ | alloc
      · rw [hfa] at hsome
        cases hsome
      · obtain ⟨_, _, h3⟩ := findAlloc_bounds _ _ _ _ _ _ _ hfa
        have hx : (0 : ℤ) ≤ (alloc : ℤ) := Int.natCast_nonneg alloc
        have hrec := ih (remaining - alloc) (dictInsert acc rid alloc)
          (by omega)
          (dictInsert_keys_nodup acc rid alloc hnodup)
          (by
            intro q hq
            rcases mem_dictInsert _ _ _ q hq with h | h
            · exact hnn q h
            · rw [h]; exact hx)
        have hsum := dictInsert_sum_le acc rid (alloc : ℤ) hnodup hnn hx
        show sumUnits (backtrackAux 0 max_per_route rest (remaining - alloc)
          (dictInsert acc rid alloc)) ≤ sumUnits acc + remaining
        omega

/-- C1 (counterexample): for the route-value list `[("A",1), ("B",1)]`
with `max_units = 0`, `min_units = 1`, `max_per_route = 1` (which
satisfies `0 ≤ min_units ≤ max_per_route`), the backtrack's fallback
allocates 1 unit to each route, so the allocated sum is `2 > 0 =
max_units`, violating the claimed budget bound. -/
theorem C1_budget_overrun :
    dp_allocate [("A", 1), ("B", 1)] 0 1 1 = [("B", 1), ("A", 1)] ∧
      sumUnits (dp_allocate [("A", 1), ("B", 1)] 0 1 1) = 2 ∧
      ¬ sumUnits (dp_allocate [("A", 1), ("B", 1)] 0 1 1) ≤ (0 : ℤ) := by
  refine ⟨by decide, by decide, by decide⟩

/-- C1 (amended): for every result of `_dp_allocate` with
`0 ≤ min_units ≤ max_per_route`, every allocated route's unit count
lies in `[min_units, max_per_route]`; the budget bound
`sum(units) ≤ max_units` holds whenever `min_units = 0` (with
`min_units ≥ 1` the backtrack's fallback branch can overrun
`max_units`). -/
theorem C1_allocation_bounds (values : List (String × ℚ))
    (max_units min_units max_per_route : ℕ) (hmm : min_units ≤ max_per_route) :
    (∀ p ∈ dp_allocate values max_units min_units max_per_route,
      (min_units : ℤ) ≤ p.2 ∧ p.2 ≤ (max_per_route : ℤ)) ∧
    (min_units = 0 →
      sumUnits (dp_allocate values max_units min_units max_per_route) ≤ (max_units : ℤ)) := by
  constructor
  · exact backtrackAux_bounds min_units max_per_route hmm values.reverse
      (max_units : ℤ) [] (by intro p hp; cases hp)
  · intro h0
    subst h0
    have := backtrackAux_sum max_per_route values.reverse (max_units : ℤ) []
      (Int.natCast_nonneg max_units) List.nodup_nil (by intro p hp; cases hp)
    simpa [sumUnits] using this

theorem C1_allocation_bounds_witness :
    (1 : ℕ) ≤ 2 ∧
      (∀ p ∈ dp_allocate [("A", 1), ("B", 1)] 3 1 2,
        (1 : ℤ) ≤ p.2 ∧ p.2 ≤ (2 : ℤ)) ∧
      ((1 : ℕ) = 0 → sumUnits (dp_allocate [("A", 1), ("B", 1)] 3 1 2) ≤ (3 : ℤ)) :=
  ⟨by norm_num, (C1_allocation_bounds [("A", 1), ("B", 1)] 3 1 2 (by norm_num)).1,
    (C1_allocation_bounds [("A", 1), ("B", 1)] 3 1 2 (by norm_num)).2⟩

/-- Keys of the resulting allocation through the backtrack. -/
theorem backtrackAux_keys (min_units max_per_route : ℕ) :
    ∀ (revVals : List (String × ℚ)) (remaining : ℤ) (acc : List (String × ℤ)),
      ((acc.map Prod.fst).Nodup →
        ((backtrackAux min_units max_per_route revVals remaining acc).map Prod.fst).Nodup) ∧
      (∀ k, k ∈ (backtrackAux min_units max_per_route revVals remaining acc).map Prod.fst ↔
        k ∈ acc.map Prod.fst ∨ k ∈ revVals.map Prod.fst) := by
  intro revVals
  induction revVals with
  | nil =>
      intro remaining acc
      rw [backtrackAux]
      exact ⟨id, fun k => by simp⟩
  | cons rv rest ih =>
      intro remaining acc
      obtain ⟨rid, v⟩ := rv
      rw [backtrackAux]
      rcases hfa : findAlloc (dpRow min_units max_per_route (v :: rest.map Prod.snd))
          (dpRow min_units max_per_route (rest.map Prod.snd)) v min_units max_per_route
          remaining with _ | alloc
      all_goals
        constructor
        · intro hnodup
          exact (ih _ _).1 (dictInsert_keys_nodup acc rid _ hnodup)
        · intro k
          rw [(ih _ _).2 k, mem_dictInsert_keys]
          simp only [List.map_cons, List.mem_cons]
          tauto

/-- C9: the allocation map returned by `_dp_allocate` has exactly one
entry for each route id in the input values list and no other keys;
every input route receives an allocation even when `max_units` is too
small (the fallback assigns `min_units`). -/
theorem C9_allocation_keys (values : List (String × ℚ))
    (max_units min_units max_per_route : ℕ) :
    ((dp_allocate values max_units min_units max_per_route).map Prod.fst).Nodup ∧
      ∀ k, k ∈ (dp_allocate values max_units min_units max_per_route).map Prod.fst ↔
        k ∈ values.map Prod.fst := by
  unfold dp_allocate
  have h := backtrackAux_keys min_units max_per_route values.reverse (max_units : ℤ) []
  refine ⟨h.1 List.nodup_nil, fun k => ?_⟩
  rw [h.2 k]
  simp

end DPSchedule

namespace PathSearch

/-! ## `dijkstra_shortest_path` (src/algorithms/dijkstra.py) and
`a_star` (src/algorithms/a_star.py)

Modelling notes:
* `float('infinity')` and distances are modelled in `WithTop ℚ`.
* The `heapq` priority queue is modelled as a list of
  `(distance, node)` entries popped in lexicographic tuple order, which
  is `heapq`'s observable contract (equal tuples are indistinguishable).
* The `while` loops are fuel-indexed; `none` models non-termination /
  fuel exhaustion, so theorems quantify over returned results.
* Dict lookups that can raise `KeyError` (`previous[current]` during
  path reconstruction) are modelled by an explicit domain check
  returning `none` on a missing key. -/

abbrev Dist := WithTop ℚ

structure EdgeAttrs where
  weight : Option ℚ
  condition : Option ℚ

structure Graph where
  nodes : List String
  edata : String → String → Option EdgeAttrs

/-- `graph.neighbors(u)`: the nodes adjacent to `u`. -/
def nbrs (G : Graph) (u : String) : List String :=
  G.nodes.filter (fun v => (G.edata u v).isSome)

/-- The edge weight used by `dijkstra_shortest_path`:
`edge_data.get('weight', 1.0)`, multiplied by
`1 + (11 - edge_data.get('condition', 10)) * condition_weight` when
`consider_road_condition` is set. -/
def dijWeight (crc : Bool) (cw : ℚ) (a : EdgeAttrs) : ℚ :=
  if crc then (a.weight.getD 1) * (1 + (11 - a.condition.getD 10) * cw)
  else a.weight.getD 1

/-- Total weight function over node pairs (`0` when there is no edge;
only applied along edges). -/
def wfun (G : Graph) (crc : Bool) (cw : ℚ) (u v : String) : ℚ :=
  match G.edata u v with
  | some a => dijWeight crc cw a
  | none => 0

/-- Lexicographic order on heap entries `(distance, node)`, as used by
`heapq` on Python tuples. -/
def entryLE (x y : Dist × String) : Prop :=
  x.1 < y.1 ∨ (x.1 = y.1 ∧ x.2 ≤ y.2)

instance : DecidablePred (fun p : (Dist × String) × (Dist × String) => entryLE p.1 p.2) := by
  intro p
  unfold entryLE
  infer_instance

instance (x y : Dist × String) : Decidable (entryLE x y) := by
  unfold entryLE
  infer_instance

theorem entryLE_refl (x : Dist × String) : entryLE x x := Or.inr ⟨rfl, le_refl _⟩

theorem entryLE_total (x y : Dist × String) : entryLE x y ∨ entryLE y x := by
  unfold entryLE
  rcases lt_trichotomy x.1 y.1 with h | h | h
  · exact Or.inl (Or.inl h)
  · rcases le_total x.2 y.2 with h2 | h2
    · exact Or.inl (Or.inr ⟨h, h2⟩)
    · exact Or.inr (Or.inr ⟨h.symm, h2⟩)
  · exact Or.inr (Or.inl h)

theorem entryLE_trans {x y z : Dist × String} (h1 : entryLE x y) (h2 : entryLE y z) :
    entryLE x z := by
  unfold entryLE at h1 h2 ⊢
  rcases h1 with h1 | ⟨h1, h1'⟩ <;> rcases h2 with h2 | ⟨h2, h2'⟩
  · exact Or.inl (lt_trans h1 h2)
  · exact Or.inl (h2 ▸ h1)
  · exact Or.inl (h1 ▸ h2)
  · exact Or.inr ⟨h1.trans h2, h1'.trans h2'⟩

theorem entryLE_fst {x y : Dist × String} (h : entryLE x y) : x.1 ≤ y.1 := by
  rcases h with h | ⟨h, _⟩
  · exact le_of_lt h
  · exact le_of_eq h

/-- The minimum entry of a nonempty list under the tuple order. -/
def minEntry (x : Dist × String) (xs : List (Dist × String)) : Dist × String :=
  xs.foldl (fun m y => if entryLE m y then m else y) x

theorem minEntry_mem (xs : List (Dist × String)) :
    ∀ x, minEntry x xs = x ∨ minEntry x xs ∈ xs := by
  induction xs with
  | nil => intro x; exact Or.inl rfl
  | cons y rest ih =>
      intro x
      unfold minEntry at ih ⊢
      rw [List.foldl_cons]
      by_cases h : entryLE x y
      · rw [if_pos h]
        rcases ih x with h' | h'
        · exact Or.inl h'
        · exact Or.inr (List.mem_cons_of_mem y h')
      · rw [if_neg h]
        rcases ih y with h' | h'
        · refine Or.inr ?_
          rw [h']
          exact List.mem_cons_self y rest
        · exact Or.inr (List.mem_cons_of_mem y h')

theorem minEntry_le (xs : List (Dist × String)) :
    ∀ x, ∀ z ∈ x :: xs, entryLE (minEntry x xs) z := by
  induction xs with
  | nil =>
      intro x z hz
      rcases List.mem_cons.mp hz with rfl | h
      · exact entryLE_refl z
      · cases h
  | cons y rest ih =>
      intro x z hz
      unfold minEntry at ih ⊢
      rw [List.foldl_cons]
      have hseed : ∀ w, entryLE (List.foldl (fun m y => if entryLE m y then m else y) w rest) w :=
        fun w => ih w w (List.mem_cons_self w rest)
      by_cases h : entryLE x y
      · rw [if_pos h]
        rcases List.mem_cons.mp hz with rfl | hz'
        · exact hseed z
        · rcases List.mem_cons.mp hz' with rfl | hz''
          · exact entryLE_trans (hseed x) h
          · exact ih x z (List.mem_cons_of_mem x hz'')
      · rw [if_neg h]
        have hyx : entryLE y x := (entryLE_total x y).resolve_left h
        rcases List.mem_cons.mp hz with rfl | hz'
        · exact entryLE_trans (hseed y) hyx
        · rcases List.mem_cons.mp hz' with rfl | hz''
          · exact hseed z
          · exact ih y z (List.mem_cons_of_mem y hz'')

/-- `heapq.heappop`: remove and return the minimum entry. -/
def popMin (l : List (Dist × String)) :
    Option ((Dist × String) × List (Dist × String)) :=
  match l with
  | [] => none
  | x :: xs => some (minEntry x xs, l.erase (minEntry x xs))

theorem popMin_none (l : List (Dist × String)) : popMin l = none ↔ l = [] := by
  cases l with
  | nil => exact ⟨fun _ => rfl, fun _ => rfl⟩
  | cons x xs =>
      constructor
      · intro h; cases h
      · intro h; cases h

theorem popMin_spec (l : List (Dist × String)) (m : Dist × String)
    (rest : List (Dist × String)) (h : popMin l = some (m, rest)) :
    m ∈ l ∧ rest = l.erase m ∧ ∀ z ∈ l, entryLE m z := by
  cases l with
  | nil => cases h
  | cons x xs =>
      unfold popMin at h
      injection h with h'
      injection h' with h1 h2
      subst h1
      subst h2
      refine ⟨?_, rfl, minEntry_le xs x⟩
      rcases minEntry_mem xs x with h | h
      · rw [h]; exact List.mem_cons_self x xs
      · exact List.mem_cons_of_mem x h

structure DState where
  dist : String → Dist
  prev : String → Option String
  pq : List (Dist × String)

/-- Relaxation of one neighbor `v` from the popped node `u`
(the body of `for neighbor in graph.neighbors(current)`). -/
def relaxNbr (G : Graph) (crc : Bool) (cw : ℚ) (u : String) (s : DState)
    (v : String) : DState :=
  match G.edata u v with
  | none => s
  | some a =>
      if s.dist u + (dijWeight crc cw a : ℚ) < s.dist v then
        { dist := fun x => if x = v then s.dist u + (dijWeight crc cw a : ℚ) else s.dist x,
          prev := fun x => if x = v then some u else s.prev x,
          pq := s.pq ++ [(s.dist u + (dijWeight crc cw a : ℚ), v)] }
      else s

def relaxAll (G : Graph) (crc : Bool) (cw : ℚ) (u : String) (s : DState) : DState :=
  (nbrs G u).foldl (relaxNbr G crc cw u) s

/-- The main `while pq:` loop of `dijkstra_shortest_path`. -/
def dijkstraLoop (G : Graph) (endNode : String) (crc : Bool) (cw : ℚ) :
    ℕ → DState → Option DState
  | 0, _ => none
  | fuel + 1, s =>
      match popMin s.pq with
      | none => some s
      | some ((d, u), rest) =>
          if u = endNode then some { s with pq := rest }
          else if s.dist u < d then
            dijkstraLoop G endNode crc cw fuel { s with pq := rest }
          else
            dijkstraLoop G endNode crc cw fuel (relaxAll G crc cw u { s with pq := rest })

/-- The reconstruction loop `while current is not None: path.append(current);
current = previous[current]` — it produces the path in end-to-start
order; `previous[current]` raises `KeyError` (modelled `none`) when
`current` is not a key of the `previous` dict (whose keys are the graph
nodes). -/
def reconRev (nodes : List String) (prev : String → Option String) :
    ℕ → String → Option (List String)
  | 0, _ => none
  | fuel + 1, cur =>
      if cur ∈ nodes then
        match prev cur with
        | none => some [cur]
        | some p => (reconRev nodes prev fuel p).map (fun l => cur :: l)
      else none

/-- Embedding of `dijkstra_shortest_path`.  The returned cost is
`distances[end] if end in distances else float('infinity')`; the
`distances` dict has the graph nodes and `start` as keys. -/
def dijkstra_shortest_path (G : Graph) (start endNode : String) (crc : Bool)
    (cw : ℚ) (fuel : ℕ) : Option (List String × Dist) :=
  match dijkstraLoop G endNode crc cw fuel
      { dist := fun v => if v = start then 0 else ⊤,
        prev := fun _ => none,
        pq := [((0 : Dist), start)] } with
  | none => none
  | some s =>
      match reconRev G.nodes s.prev fuel endNode with
      | none => none
      | some revPath =>
          some (revPath.reverse,
            if endNode ∈ G.nodes ∨ endNode = start then s.dist endNode else ⊤)

/-! ### Chains of predecessor links

`reconRev` returns the path in end-to-start order; `RevLinks prev l`
says each element's predecessor is the next element of `l`. -/

def RevLinks (prev : String → Option String) (l : List String) : Prop :=
  ∀ p ∈ l.zip l.tail, prev p.1 = some p.2

theorem revLinks_tail {prev : String → Option String} {a : String} {l : List String}
    (h : RevLinks prev (a :: l)) : RevLinks prev l := by
  intro p hp
  refine h p ?_
  cases l with
  | nil => cases hp
  | cons b rest => exact List.mem_cons_of_mem (a, b) hp

theorem zipTail_snoc : ∀ (ys : List String) (a : String),
    (ys ++ [a]).zip ((ys ++ [a]).tail) =
      ys.zip ys.tail ++
        (match ys.getLast? with
          | none => ([] : List (String × String))
          | some z => [(z, a)]) := by
  intro ys
  induction ys with
  | nil => intro a; rfl
  | cons y ys' ih =>
      intro a
      cases ys' with
      | nil => rfl
      | cons c cs =>
          have h := ih a
          simp only [List.cons_append, List.zip_cons_cons, List.tail_cons] at h ⊢
          rw [h]
          rfl

theorem pairs_reverse : ∀ l : List String,
    l.reverse.zip l.reverse.tail = ((l.zip l.tail).map Prod.swap).reverse := by
  intro l
  induction l with
  | nil => rfl
  | cons a l' ih =>
      rw [List.reverse_cons, zipTail_snoc, ih, List.getLast?_reverse]
      cases l' with
      | nil => rfl
      | cons b bs =>
          simp only [List.head?_cons, List.zip_cons_cons, List.tail_cons, List.map_cons,
            List.reverse_cons, Prod.swap_prod_mk]

theorem getLast_pair : ∀ (l : List String) (z : String), 2 ≤ l.length →
    l.getLast? = some z → ∃ y, (y, z) ∈ l.zip l.tail := by
  intro l
  induction l with
  | nil =>
      intro z h
      exact absurd h (by simp)
  | cons a l' ih =>
      intro z hlen hz
      cases l' with
      | nil => simp at hlen
      | cons b bs =>
          cases bs with
          | nil =>
              refine ⟨a, ?_⟩
              have hz' : b = z := by simpa using hz
              subst hz'
              simp
          | cons c cs =>
              rw [List.getLast?_cons_cons] at hz
              obtain ⟨y, hy⟩ := ih z (by simp) hz
              exact ⟨y, List.mem_cons_of_mem (a, b) hy⟩

/-- Characterisation of the reconstruction loop's output. -/
theorem reconRev_spec (nodes : List String) (prev : String → Option String) :
    ∀ (fuel : ℕ) (cur : String) (l : List String),
      reconRev nodes prev fuel cur = some l →
      l.head? = some cur ∧ RevLinks prev l ∧ (∀ x ∈ l, x ∈ nodes) ∧
        ∃ z, l.getLast? = some z ∧ prev z = none := by
  intro fuel
  induction fuel with
  | zero => intro cur l h; cases h
  | succ f ih =>
      intro cur l h
      unfold reconRev at h
      split_ifs at h with hcur
      · rcases hp : prev cur with _ | p
        · simp only [hp] at h
          injection h with h
          subst h
          refine ⟨rfl, ?_, ?_, cur, rfl, hp⟩
          · intro q hq
            simp at hq
          · intro x hx
            rw [List.mem_singleton] at hx
            subst hx
            exact hcur
        · simp only [hp] at h
          rcases hrec : reconRev nodes prev f p with _ | l'
          · rw [hrec] at h
            simp at h
          · rw [hrec] at h
            rw [Option.map_some'] at h
            injection h with h
            subst h
            obtain ⟨hhead, hlinks, hnodes, z, hlast, hznone⟩ := ih p l' hrec
            cases l' with
            | nil => cases hhead
            | cons q rest =>
                injection hhead with hhead
                subst hhead
                refine ⟨rfl, ?_, ?_, z, ?_, hznone⟩
                · intro x hx
                  rw [List.tail_cons, List.zip_cons_cons] at hx
                  rcases List.mem_cons.mp hx with rfl | hx'
                  · exact hp
                  · exact hlinks x hx'
                · intro x hx
                  rcases List.mem_cons.mp hx with rfl | hx'
                  · exact hcur
                  · exact hnodes x hx'
                · rw [List.getLast?_cons_cons]
                  exact hlast

/-! ### Weight sums along a list of node pairs -/

def sumW (w : String → String → ℚ) (l : List (String × String)) : ℚ :=
  (l.map (fun p => w p.1 p.2)).sum

theorem sumW_nonneg (w : String → String → ℚ) (hw : ∀ a b, 0 ≤ w a b)
    (l : List (String × String)) : 0 ≤ sumW w l := by
  refine List.sum_nonneg ?_
  intro x hx
  obtain ⟨p, _, rfl⟩ := List.mem_map.mp hx
  exact hw p.1 p.2

theorem sumW_reverse (w : String → String → ℚ) (L : List String) :
    sumW w (L.reverse.zip L.reverse.tail) =
      ((L.zip L.tail).map (fun p => w p.2 p.1)).sum := by
  rw [pairs_reverse]
  unfold sumW
  rw [List.map_reverse, List.sum_reverse, List.map_map]
  rfl

/-- Along a predecessor chain (in end-to-start order with head `hd`),
every element `x` admits a forward path to `hd` whose edges all come
from chain links and whose total weight `q` satisfies
`dist x + q ≤ dist hd`. -/
theorem revchain_paths (prev : String → Option String) (dist : String → Dist)
    (w : String → String → ℚ) (E : String → String → Prop)
    (hle : ∀ a b, prev b = some a → dist a + (w a b : Dist) ≤ dist b)
    (hedge : ∀ a b, prev b = some a → E a b) :
    ∀ (l : List String) (hd : String), l.head? = some hd → RevLinks prev l →
      ∀ x ∈ l, ∃ p : List String, p.head? = some x ∧ p.getLast? = some hd ∧
        (∀ q ∈ p.zip p.tail, E q.1 q.2) ∧
        dist x + (sumW w (p.zip p.tail) : Dist) ≤ dist hd := by
  intro l
  induction l with
  | nil => intro hd hhd; cases hhd
  | cons a l' ih =>
      intro hd hhd hlinks x hx
      injection hhd with hhd
      subst hhd
      rcases List.mem_cons.mp hx with rfl | hx'
      · refine ⟨[x], rfl, rfl, ?_, ?_⟩
        · intro q hq; simp at hq
        · show dist x + ((sumW w [] : ℚ) : Dist) ≤ dist x
          unfold sumW
          simp
      · cases l' with
        | nil => cases hx'
        | cons b rest =>
            have hlink : prev a = some b :=
              hlinks (a, b) (List.mem_cons_self _ _)
            obtain ⟨p', hh', hl', he', hs'⟩ :=
              ih b rfl (revLinks_tail hlinks) x hx'
            refine ⟨p' ++ [a], ?_, List.getLast?_concat p', ?_, ?_⟩
            · cases p' with
              | nil => cases hh'
              | cons c cs => simpa using hh'
            · intro q hq
              rw [zipTail_snoc, hl'] at hq
              rcases List.mem_append.mp hq with hq' | hq'
              · exact he' q hq'
              · rw [List.mem_singleton] at hq'
                subst hq'
                exact hedge b a hlink
            · rw [zipTail_snoc, hl']
              have hsum : sumW w (p'.zip p'.tail ++ [(b, a)]) =
                  sumW w (p'.zip p'.tail) + w b a := by
                unfold sumW
                rw [List.map_append, List.sum_append]
                simp
              rw [hsum, WithTop.coe_add, ← add_assoc]
              calc dist x + (sumW w (p'.zip p'.tail) : Dist) + (w b a : Dist)
                  ≤ dist b + (w b a : Dist) := add_le_add_right hs' _
                _ ≤ dist a := hle b a hlink

/-- Telescoping the exact-link equations along a predecessor chain. -/
theorem revchain_telescope (dist : String → Dist) (w : String → String → ℚ) :
    ∀ (l : List String) (hd z : String), l.head? = some hd →
      l.getLast? = some z →
      (∀ p ∈ l.zip l.tail, dist p.1 = dist p.2 + (w p.2 p.1 : Dist)) →
      dist hd = dist z + (((l.zip l.tail).map (fun p => w p.2 p.1)).sum : Dist) := by
  intro l
  induction l with
  | nil => intro hd z hhd; cases hhd
  | cons a l' ih =>
      intro hd z hhd hlast hex
      injection hhd with hhd
      subst hhd
      cases l' with
      | nil =>
          have hz : a = z := by simpa using hlast
          subst hz
          simp
      | cons b rest =>
          have h1 : dist a = dist b + (w b a : Dist) :=
            hex (a, b) (List.mem_cons_self _ _)
          rw [List.getLast?_cons_cons] at hlast
          have h2 := ih b z rfl hlast
            (fun p hp => hex p (List.mem_cons_of_mem (a, b) hp))
          rw [h1, h2]
          simp only [List.tail_cons, List.zip_cons_cons, List.map_cons, List.sum_cons,
            WithTop.coe_add]
          rw [add_assoc, add_comm ((w b a : Dist))]

/-! ### Loop invariants for `dijkstra_shortest_path`

`DInv` collects the facts maintained by the main loop about the
`distances` / `previous` dicts and the heap; `StaleWit` states that any
predecessor link whose source distance has since been improved still
has a matching heap entry; `RStale` is the mid-relaxation variant
where links out of the popped node `u₀` may instead point at a
neighbor that is still pending in the `for` loop. -/

structure DInv (G : Graph) (crc : Bool) (cw : ℚ) (start : String) (s : DState) : Prop where
  links_edge : ∀ u v, s.prev v = some u → (G.edata u v).isSome
  links_le : ∀ u v, s.prev v = some u →
    s.dist u + (wfun G crc cw u v : Dist) ≤ s.dist v
  links_fin : ∀ u v, s.prev v = some u → s.dist u ≠ ⊤
  links_node : ∀ u v, s.prev v = some u → v ∈ G.nodes
  pq_ge : ∀ e ∈ s.pq, s.dist e.2 ≤ e.1
  start_dist : s.dist start = 0
  unrelaxed : ∀ v, s.prev v = none → s.dist v = (if v = start then 0 else ⊤)
  dist_nonneg : ∀ v, 0 ≤ s.dist v

def StaleWit (G : Graph) (crc : Bool) (cw : ℚ) (s : DState) : Prop :=
  ∀ u v, s.prev v = some u →
    s.dist u + (wfun G crc cw u v : Dist) < s.dist v → (s.dist u, u) ∈ s.pq

def RStale (G : Graph) (crc : Bool) (cw : ℚ) (u₀ : String)
    (pending : List String) (s : DState) : Prop :=
  ∀ u v, s.prev v = some u →
    s.dist u + (wfun G crc cw u v : Dist) < s.dist v →
    (s.dist u, u) ∈ s.pq ∨ (u = u₀ ∧ v ∈ pending)

/-- After the loop, every predecessor link whose target is at distance
at most `dist endNode` satisfies the exact relaxation equation. -/
def ExactBelow (G : Graph) (crc : Bool) (cw : ℚ) (endNode : String) (s : DState) : Prop :=
  ∀ u v, s.prev v = some u → s.dist v ≤ s.dist endNode →
    s.dist u + (wfun G crc cw u v : Dist) = s.dist v

theorem wfun_eq {G : Graph} {u v : String} {a : EdgeAttrs} (crc : Bool) (cw : ℚ)
    (h : G.edata u v = some a) : wfun G crc cw u v = dijWeight crc cw a := by
  unfold wfun
  rw [h]

/-- Case analysis on one relaxation step. -/
theorem relaxNbr_eq (G : Graph) (crc : Bool) (cw : ℚ) (u : String) (s : DState)
    (v : String) :
    (relaxNbr G crc cw u s v = s ∧
      ∀ a, G.edata u v = some a →
        ¬ s.dist u + (dijWeight crc cw a : Dist) < s.dist v) ∨
    (∃ a, G.edata u v = some a ∧
      s.dist u + (dijWeight crc cw a : Dist) < s.dist v ∧
      relaxNbr G crc cw u s v =
        { dist := fun x => if x = v then s.dist u + (dijWeight crc cw a : Dist) else s.dist x,
          prev := fun x => if x = v then some u else s.prev x,
          pq := s.pq ++ [(s.dist u + (dijWeight crc cw a : Dist), v)] }) := by
  cases he : G.edata u v with
  | none =>
      refine Or.inl ⟨?_, ?_⟩
      · simp only [relaxNbr, he]
      · intro a ha
        exact Option.noConfusion ha
  | some a =>
      by_cases hlt : s.dist u + (dijWeight crc cw a : Dist) < s.dist v
      · refine Or.inr ⟨a, rfl, hlt, ?_⟩
        simp only [relaxNbr, he]
        rw [if_pos hlt]
      · refine Or.inl ⟨?_, ?_⟩
        · simp only [relaxNbr, he]
          rw [if_neg hlt]
        · intro a' ha'
          injection ha' with ha'
          subst ha'
          exact hlt

theorem update_source_ne {G : Graph} {crc : Bool} {cw : ℚ} {u v : String}
    {s : DState} {a : EdgeAttrs}
    (hw : ∀ a b, 0 ≤ wfun G crc cw a b) (he : G.edata u v = some a)
    (hlt : s.dist u + (dijWeight crc cw a : Dist) < s.dist v) : u ≠ v := by
  intro huv
  have h0 : (0 : Dist) ≤ (dijWeight crc cw a : Dist) := by
    have h1 := hw u v
    rw [wfun_eq crc cw he] at h1
    exact_mod_cast h1
  rw [huv] at hlt
  exact absurd hlt (not_lt.mpr (le_add_of_nonneg_right h0))

theorem update_source_fin {crc : Bool} {cw : ℚ} {u v : String}
    {s : DState} {a : EdgeAttrs}
    (hlt : s.dist u + (dijWeight crc cw a : Dist) < s.dist v) : s.dist u ≠ ⊤ := by
  intro htop
  rw [htop, top_add] at hlt
  exact absurd hlt not_top_lt

theorem relaxNbr_inv {G : Graph} {crc : Bool} {cw : ℚ} {start u : String}
    (hw : ∀ a b, 0 ≤ wfun G crc cw a b) {v : String} (hv : v ∈ G.nodes)
    {s : DState} (hI : DInv G crc cw start s) :
    DInv G crc cw start (relaxNbr G crc cw u s v) := by
  rcases relaxNbr_eq G crc cw u s v with ⟨heq, _⟩ | ⟨a, he, hlt, heq⟩
  · rw [heq]; exact hI
  · rw [heq]
    have hne := update_source_ne hw he hlt
    have hwa : wfun G crc cw u v = dijWeight crc cw a := wfun_eq crc cw he
    have hdu : s.dist u ≠ ⊤ := update_source_fin hlt
    have h0 : (0 : Dist) ≤ (dijWeight crc cw a : Dist) := by
      have := hw u v
      rw [hwa] at this
      exact_mod_cast this
    constructor
    · intro x y hxy
      dsimp only at hxy ⊢
      by_cases hy : y = v
      · subst hy
        rw [if_pos rfl] at hxy
        injection hxy with hxy
        subst hxy
        rw [he]
        rfl
      · rw [if_neg hy] at hxy
        exact hI.links_edge x y hxy
    · intro x y hxy
      dsimp only at hxy ⊢
      by_cases hy : y = v
      · subst hy
        rw [if_pos rfl] at hxy
        injection hxy with hxy
        subst hxy
        rw [if_neg hne, if_pos rfl, hwa]
      · rw [if_neg hy] at hxy
        have hold := hI.links_le x y hxy
        rw [if_neg hy]
        by_cases hx : x = v
        · subst hx
          rw [if_pos rfl]
          calc s.dist u + (dijWeight crc cw a : Dist) + (wfun G crc cw x y : Dist)
              ≤ s.dist x + (wfun G crc cw x y : Dist) :=
                add_le_add_right (le_of_lt hlt) _
            _ ≤ s.dist y := hold
        · rw [if_neg hx]
          exact hold
    · intro x y hxy
      dsimp only at hxy ⊢
      by_cases hy : y = v
      · subst hy
        rw [if_pos rfl] at hxy
        injection hxy with hxy
        subst hxy
        rw [if_neg hne]
        exact hdu
      · rw [if_neg hy] at hxy
        by_cases hx : x = v
        · subst hx
          rw [if_pos rfl]
          exact WithTop.add_ne_top.mpr ⟨hdu, WithTop.coe_ne_top⟩
        · rw [if_neg hx]
          exact hI.links_fin x y hxy
    · intro x y hxy
      dsimp only at hxy
      by_cases hy : y = v
      · subst hy; exact hv
      · rw [if_neg hy] at hxy
        exact hI.links_node x y hxy
    · intro e hee
      dsimp only at hee ⊢
      rcases List.mem_append.mp hee with hee | hee
      · have hold := hI.pq_ge e hee
        by_cases hx : e.2 = v
        · rw [if_pos hx]
          rw [hx] at hold
          exact le_trans (le_of_lt hlt) hold
        · rw [if_neg hx]
          exact hold
      · rw [List.mem_singleton] at hee
        subst hee
        rw [if_pos rfl]
    · dsimp only
      by_cases hs : start = v
      · exfalso
        rw [← hs, hI.start_dist] at hlt
        have : (0 : Dist) ≤ s.dist u + (dijWeight crc cw a : Dist) :=
          add_nonneg (hI.dist_nonneg u) h0
        exact absurd hlt (not_lt.mpr this)
      · rw [if_neg hs]
        exact hI.start_dist
    · intro x hx
      dsimp only at hx ⊢
      by_cases hxv : x = v
      · rw [if_pos hxv] at hx
        cases hx
      · rw [if_neg hxv] at hx
        rw [if_neg hxv]
        exact hI.unrelaxed x hx
    · intro x
      dsimp only
      by_cases hxv : x = v
      · rw [if_pos hxv]
        exact add_nonneg (hI.dist_nonneg u) h0
      · rw [if_neg hxv]
        exact hI.dist_nonneg x

theorem relaxNbr_rstale {G : Graph} {crc : Bool} {cw : ℚ} {start u : String}
    (hw : ∀ a b, 0 ≤ wfun G crc cw a b) {v : String}
    {pending : List String} {s : DState} (hI : DInv G crc cw start s)
    (hR : RStale G crc cw u (v :: pending) s) :
    RStale G crc cw u pending (relaxNbr G crc cw u s v) := by
  rcases relaxNbr_eq G crc cw u s v with ⟨heq, hng⟩ | ⟨a, he, hlt, heq⟩
  · rw [heq]
    intro x y hxy hst
    rcases hR x y hxy hst with hpq | ⟨rfl, hy⟩
    · exact Or.inl hpq
    · rcases List.mem_cons.mp hy with rfl | hy'
      · exfalso
        have hedge := hI.links_edge x y hxy
        rw [Option.isSome_iff_exists] at hedge
        obtain ⟨a, ha⟩ := hedge
        rw [wfun_eq crc cw ha] at hst
        exact hng a ha hst
      · exact Or.inr ⟨rfl, hy'⟩
  · rw [heq]
    have hne := update_source_ne hw he hlt
    have hwa : wfun G crc cw u v = dijWeight crc cw a := wfun_eq crc cw he
    intro x y hxy hst
    dsimp only at hxy hst ⊢
    by_cases hy : y = v
    · subst hy
      rw [if_pos rfl] at hxy
      injection hxy with hxy
      subst hxy
      rw [if_neg hne, if_pos rfl, hwa] at hst
      exact absurd hst (lt_irrefl _)
    · rw [if_neg hy] at hxy hst
      by_cases hx : x = v
      · subst hx
        rw [if_pos rfl] at hst ⊢
        refine Or.inl (List.mem_append.mpr (Or.inr ?_))
        rw [List.mem_singleton]
      · rw [if_neg hx] at hst ⊢
        rcases hR x y hxy hst with hpq | ⟨rfl, hy'⟩
        · exact Or.inl (List.mem_append.mpr (Or.inl hpq))
        · rcases List.mem_cons.mp hy' with rfl | hy''
          · exact absurd rfl hy
          · exact Or.inr ⟨rfl, hy''⟩

theorem relaxList_inv {G : Graph} {crc : Bool} {cw : ℚ} {start u : String}
    (hw : ∀ a b, 0 ≤ wfun G crc cw a b) :
    ∀ (pending : List String) (s : DState), (∀ x ∈ pending, x ∈ G.nodes) →
      DInv G crc cw start s → RStale G crc cw u pending s →
      DInv G crc cw start (pending.foldl (relaxNbr G crc cw u) s) ∧
        RStale G crc cw u [] (pending.foldl (relaxNbr G crc cw u) s) := by
  intro pending
  induction pending with
  | nil =>
      intro s _ hI hR
      exact ⟨hI, hR⟩
  | cons v rest ih =>
      intro s hmem hI hR
      rw [List.foldl_cons]
      exact ih (relaxNbr G crc cw u s v)
        (fun x hx => hmem x (List.mem_cons_of_mem v hx))
        (relaxNbr_inv hw (hmem v (List.mem_cons_self v rest)) hI)
        (relaxNbr_rstale hw hI hR)

theorem dinv_restrict {G : Graph} {crc : Bool} {cw : ℚ} {start : String}
    {s : DState} (hI : DInv G crc cw start s) (rest : List (Dist × String))
    (hsub : ∀ e ∈ rest, e ∈ s.pq) :
    DInv G crc cw start { s with pq := rest } :=
  { links_edge := hI.links_edge
    links_le := hI.links_le
    links_fin := hI.links_fin
    links_node := hI.links_node
    pq_ge := fun e he => hI.pq_ge e (hsub e he)
    start_dist := hI.start_dist
    unrelaxed := hI.unrelaxed
    dist_nonneg := hI.dist_nonneg }

/-- Every state emitted by the main loop satisfies the invariant, and
links whose target is at distance at most `dist endNode` are exact. -/
theorem dijkstraLoop_post {G : Graph} {endNode : String} {crc : Bool} {cw : ℚ}
    {start : String} (hw : ∀ a b, 0 ≤ wfun G crc cw a b) :
    ∀ (fuel : ℕ) (s s' : DState), DInv G crc cw start s → StaleWit G crc cw s →
      dijkstraLoop G endNode crc cw fuel s = some s' →
      DInv G crc cw start s' ∧ ExactBelow G crc cw endNode s' := by
  intro fuel
  induction fuel with
  | zero => intro s s' _ _ h; cases h
  | succ f ih =>
      intro s s' hI hSW h
      unfold dijkstraLoop at h
      rcases hpop : popMin s.pq with _ | ⟨⟨d, u⟩, rest⟩
      · simp only [hpop] at h
        injection h with h
        subst h
        have hnil : s.pq = [] := (popMin_none s.pq).mp hpop
        refine ⟨hI, ?_⟩
        intro x y hxy _
        refine le_antisymm (hI.links_le x y hxy) (not_lt.mp ?_)
        intro hst
        have hmem := hSW x y hxy hst
        rw [hnil] at hmem
        cases hmem
      · simp only [hpop] at h
        obtain ⟨hm, hrest, hmin⟩ := popMin_spec s.pq (d, u) rest hpop
        by_cases hend : u = endNode
        · rw [if_pos hend] at h
          injection h with h
          subst h
          refine ⟨dinv_restrict hI rest (fun e he => List.mem_of_mem_erase (hrest ▸ he)), ?_⟩
          intro x y hxy hble
          refine le_antisymm (hI.links_le x y hxy) (not_lt.mp ?_)
          intro hst
          have hwit : (s.dist x, x) ∈ s.pq := hSW x y hxy hst
          have hdx : d ≤ s.dist x := entryLE_fst (hmin (s.dist x, x) hwit)
          have hde : s.dist endNode ≤ d := by
            have := hI.pq_ge (d, u) hm
            rw [hend] at this
            exact this
          have hxx : s.dist x ≤ s.dist x + (wfun G crc cw x y : Dist) := by
            refine le_add_of_nonneg_right ?_
            exact_mod_cast hw x y
          exact absurd (lt_of_lt_of_le hst (le_trans hble (le_trans hde (le_trans hdx hxx))))
            (lt_irrefl _)
        · rw [if_neg hend] at h
          have hI' : DInv G crc cw start { s with pq := rest } :=
            dinv_restrict hI rest (fun e he => List.mem_of_mem_erase (hrest ▸ he))
          by_cases hstale : s.dist u < d
          · rw [if_pos hstale] at h
            refine ih _ s' hI' ?_ h
            intro x y hxy hst
            have hwit : (s.dist x, x) ∈ s.pq := hSW x y hxy hst
            have hne : (s.dist x, x) ≠ (d, u) := by
              intro hcontra
              injection hcontra with h1 h2
              subst h2
              rw [h1] at hstale
              exact absurd hstale (lt_irrefl d)
            show (s.dist x, x) ∈ rest
            rw [hrest]
            exact (List.mem_erase_of_ne hne).mpr hwit
          · rw [if_neg hstale] at h
            have hR : RStale G crc cw u (nbrs G u) { s with pq := rest } := by
              intro x y hxy hst
              have hwit : (s.dist x, x) ∈ s.pq := hSW x y hxy hst
              by_cases hxu : x = u
              · subst hxu
                refine Or.inr ⟨rfl, ?_⟩
                unfold nbrs
                rw [List.mem_filter]
                exact ⟨hI.links_node x y hxy, hI.links_edge x y hxy⟩
              · refine Or.inl ?_
                have hne : (s.dist x, x) ≠ (d, u) := by
                  intro hcontra
                  injection hcontra with _ h2
                  exact hxu h2
                show (s.dist x, x) ∈ rest
                rw [hrest]
                exact (List.mem_erase_of_ne hne).mpr hwit
            obtain ⟨h2, hR0⟩ := relaxList_inv hw (nbrs G u) { s with pq := rest }
              (fun x hx => List.mem_of_mem_filter hx) hI' hR
            refine ih _ s' h2 ?_ h
            intro x y hxy hst
            rcases hR0 x y hxy hst with hpq | ⟨_, hb⟩
            · exact hpq
            · cases hb

/-- Functional correctness of `dijkstra_shortest_path` for returned
paths of at least two nodes: consecutive pairs are graph edges and the
returned cost is the sum of the search weights along the path. -/
theorem dijkstra_path_spec (G : Graph) (start endNode : String) (crc : Bool)
    (cw : ℚ) (fuel : ℕ) (path : List String) (c : Dist)
    (hw : ∀ a b, 0 ≤ wfun G crc cw a b)
    (h : dijkstra_shortest_path G start endNode crc cw fuel = some (path, c))
    (hlen : 2 ≤ path.length) :
    (∀ p ∈ path.zip path.tail, (G.edata p.1 p.2).isSome) ∧
      c = (sumW (wfun G crc cw) (path.zip path.tail) : Dist) := by
  unfold dijkstra_shortest_path at h
  rcases hloop : dijkstraLoop G endNode crc cw fuel
      { dist := fun v => if v = start then 0 else ⊤,
        prev := fun _ => none,
        pq := [((0 : Dist), start)] } with _ | s
  · simp only [hloop] at h
    exact Option.noConfusion h
  · simp only [hloop] at h
    rcases hrec : reconRev G.nodes s.prev fuel endNode with _ | revPath
    · simp only [hrec] at h
      exact Option.noConfusion h
    · simp only [hrec] at h
      injection h with h
      injection h with hpath hc
      have hI0 : DInv G crc cw start
          { dist := fun v => if v = start then 0 else ⊤,
            prev := fun _ => none,
            pq := [((0 : Dist), start)] } := by
        constructor
        · intro u v hv; cases hv
        · intro u v hv; cases hv
        · intro u v hv; cases hv
        · intro u v hv; cases hv
        · intro e he
          rw [List.mem_singleton] at he
          subst he
          simp
        · simp
        · intro v _; rfl
        · intro v
          dsimp only
          split_ifs
          · exact le_refl _
          · exact le_top
      have hSW0 : StaleWit G crc cw
          { dist := fun v => if v = start then 0 else ⊤,
            prev := fun _ => none,
            pq := [((0 : Dist), start)] } := by
        intro u v hv; cases hv
      obtain ⟨hI, hEx⟩ := dijkstraLoop_post hw fuel _ s hI0 hSW0 hloop
      obtain ⟨hhead, hlinks, hnodes, z, hlast, hznone⟩ :=
        reconRev_spec G.nodes s.prev fuel endNode revPath hrec
      have hendmem : endNode ∈ G.nodes := by
        cases revPath with
        | nil => cases hhead
        | cons a l =>
            injection hhead with hhead
            exact hhead ▸ hnodes a (List.mem_cons_self a l)
      have hc' : c = s.dist endNode := by
        rw [← hc, if_pos (Or.inl hendmem)]
      have hrevlen : 2 ≤ revPath.length := by
        rw [← hpath, List.length_reverse] at hlen
        exact hlen
      obtain ⟨y, hy⟩ := getLast_pair revPath z hrevlen hlast
      have hlinkyz : s.prev y = some z := hlinks (y, z) hy
      have hdz : s.dist z = 0 := by
        have hfin := hI.links_fin z y hlinkyz
        have := hI.unrelaxed z hznone
        by_cases hzs : z = start
        · rw [this, if_pos hzs]
        · rw [this, if_neg hzs] at hfin ⊢
          exact absurd rfl hfin
      have hble : ∀ x ∈ revPath, s.dist x ≤ s.dist endNode := by
        intro x hx
        obtain ⟨p, _, _, _, hs⟩ := revchain_paths s.prev s.dist (wfun G crc cw)
          (fun _ _ => True) hI.links_le (fun _ _ _ => trivial) revPath endNode hhead
          hlinks x hx
        refine le_trans (le_add_of_nonneg_right ?_) hs
        have := sumW_nonneg (wfun G crc cw) hw (p.zip p.tail)
        exact_mod_cast this
      have hex : ∀ p ∈ revPath.zip revPath.tail,
          s.dist p.1 = s.dist p.2 + (wfun G crc cw p.2 p.1 : Dist) := by
        intro p hp
        have hlink := hlinks p hp
        have hp1 : p.1 ∈ revPath := (List.mem_zip hp).1
        exact (hEx p.2 p.1 hlink (hble p.1 hp1)).symm
      have htel := revchain_telescope s.dist (wfun G crc cw) revPath endNode z
        hhead hlast hex
      constructor
      · intro p hp
        rw [← hpath] at hp
        rw [pairs_reverse, List.mem_reverse, List.mem_map] at hp
        obtain ⟨q, hq, rfl⟩ := hp
        exact hI.links_edge q.2 q.1 (hlinks q hq)
      · rw [hc', htel, hdz, zero_add, ← hpath, sumW_reverse]

/-! ### `a_star` (src/algorithms/a_star.py)

Modelling notes:
* The heuristic is a parameter `h : String → ℚ` (for a fixed goal,
  `heuristic(node_positions.get(n), node_positions.get(goal))` is a
  function of `n` alone; its irrational Euclidean value is abstracted).
* `g_score` is a dict with keys a subset of the discovered nodes; it is
  modelled as a total map defaulting to `⊤`, which agrees with
  `g_score.get(neighbor, float('inf'))` and with `g_score[current]` /
  `g_score[goal]` because every node popped from `open_set` has been
  given a `g_score` when it was pushed.
* `cost = edge_data['weight']` raises `KeyError` when the edge has no
  `weight` attribute; this is modelled by the `Option` monad (`none` =
  exception), as is fuel exhaustion of the `while` loop. -/

/-- The edge cost used by `a_star` (`edge_data['weight']`), totalised
with an arbitrary default for stating weight sums; it is only ever
used where the weight attribute is known to be present. -/
def aw (G : Graph) (u v : String) : ℚ :=
  ((G.edata u v).bind EdgeAttrs.weight).getD 0

structure AState where
  gs : String → Dist
  cf : String → Option String
  pq : List (Dist × String)

/-- One iteration of `for neighbor in graph.neighbors(current)`. -/
def aRelaxNbr (G : Graph) (h : String → ℚ) (u : String) (s : AState)
    (v : String) : Option AState :=
  match G.edata u v with
  | none => some s
  | some a =>
      match a.weight with
      | none => none
      | some cost =>
          if s.gs u + (cost : Dist) < s.gs v then
            some { gs := fun x => if x = v then s.gs u + (cost : Dist) else s.gs x,
                   cf := fun x => if x = v then some u else s.cf x,
                   pq := s.pq ++ [(s.gs u + (cost : Dist) + (h v : Dist), v)] }
          else some s

def aRelaxAll (G : Graph) (h : String → ℚ) (u : String) (s : AState) :
    Option AState :=
  (nbrs G u).foldlM (aRelaxNbr G h u) s

/-- The `while open_set:` loop: `some (some s)` = broke at `goal`,
`some none` = the open set ran dry (`return None, float('inf')`),
`none` = exception or fuel exhaustion. -/
def aLoop (G : Graph) (goal : String) (h : String → ℚ) :
    ℕ → AState → Option (Option AState)
  | 0, _ => none
  | fuel + 1, s =>
      match popMin s.pq with
      | none => some none
      | some ((_, u), rest) =>
          if u = goal then some (some { s with pq := rest })
          else
            match aRelaxAll G h u { s with pq := rest } with
            | none => none
            | some s₂ => aLoop G goal h fuel s₂

/-- `while current in came_from: path.append(current); current = came_from[current]`;
returns the appended list together with the final value of `current`. -/
def aRecon (cf : String → Option String) : ℕ → String → Option (List String × String)
  | 0, _ => none
  | fuel + 1, cur =>
      match cf cur with
      | none => some ([], cur)
      | some p => (aRecon cf fuel p).map (fun pr => (cur :: pr.1, pr.2))

/-- Embedding of `a_star`: the value `some (some path, c)` models a
successful `return path, g_score[goal]`, `some (none, ⊤)` models
`return None, float('inf')`. -/
def a_star (G : Graph) (start goal : String) (h : String → ℚ) (fuel : ℕ) :
    Option (Option (List String) × Dist) :=
  match aLoop G goal h fuel
      { gs := fun v => if v = start then 0 else ⊤,
        cf := fun _ => none,
        pq := [((0 : Dist), start)] } with
  | none => none
  | some none => some (none, ⊤)
  | some (some s) =>
      match aRecon s.cf fuel goal with
      | none => none
      | some (l, _) => some (some ((l ++ [start]).reverse), s.gs goal)

/-- Embedding of `find_nearest_hospital`: hospitals are `(ID, Name)`
rows; `hpos goal` is the heuristic used for the search toward `goal`. -/
def find_nearest_hospital (G : Graph) (start_id : String)
    (hospitals : List (String × String)) (hpos : String → String → ℚ)
    (fuel : ℕ) : Option (Option (List String) × Dist × Option String) :=
  hospitals.foldlM
    (fun acc row =>
      if row.1 ∈ G.nodes ∧ start_id ∈ G.nodes then
        match a_star G start_id row.1 (hpos row.1) fuel with
        | none => none
        | some (path, cost) =>
            match path with
            | none => some acc
            | some p =>
                if p ≠ [] ∧ cost < acc.2.1 then some (some p, cost, some row.2)
                else some acc
      else some acc)
    (none, ⊤, none)

/-! ### Loop invariants for `a_star` -/

structure AInv (G : Graph) (h : String → ℚ) (start : String) (s : AState) : Prop where
  links_edge : ∀ u v, s.cf v = some u → ((G.edata u v).bind EdgeAttrs.weight).isSome
  links_le : ∀ u v, s.cf v = some u → s.gs u + (aw G u v : Dist) ≤ s.gs v
  links_fin : ∀ u v, s.cf v = some u → s.gs u ≠ ⊤
  links_node : ∀ u v, s.cf v = some u → v ∈ G.nodes
  pq_ge : ∀ e ∈ s.pq, s.gs e.2 + (h e.2 : Dist) ≤ e.1 ∨ e.2 = start
  start_gs : s.gs start = 0
  start_cf : s.cf start = none
  unrelaxed : ∀ v, s.cf v = none → s.gs v = (if v = start then 0 else ⊤)
  gs_nonneg : ∀ v, 0 ≤ s.gs v

def AStaleWit (G : Graph) (h : String → ℚ) (s : AState) : Prop :=
  ∀ u v, s.cf v = some u → s.gs u + (aw G u v : Dist) < s.gs v →
    (s.gs u + (h u : Dist), u) ∈ s.pq

def ARStale (G : Graph) (h : String → ℚ) (u₀ : String)
    (pending : List String) (s : AState) : Prop :=
  ∀ u v, s.cf v = some u → s.gs u + (aw G u v : Dist) < s.gs v →
    (s.gs u + (h u : Dist), u) ∈ s.pq ∨ (u = u₀ ∧ v ∈ pending)

/-- At loop exit, any still-stale link has `f`-value at least the
popped `f`-value of the goal. -/
def ABreakFacts (G : Graph) (h : String → ℚ) (goal start : String) (s : AState) : Prop :=
  ∀ u v, s.cf v = some u → s.gs u + (aw G u v : Dist) < s.gs v →
    s.gs goal + (h goal : Dist) ≤ s.gs u + (h u : Dist) ∨ goal = start

theorem aw_eq {G : Graph} {u v : String} {a : EdgeAttrs} {c : ℚ}
    (he : G.edata u v = some a) (hwt : a.weight = some c) : aw G u v = c := by
  unfold aw
  rw [he]
  show (a.weight).getD 0 = c
  rw [hwt]
  rfl

/-- Case analysis on one `a_star` relaxation step. -/
theorem aRelaxNbr_eq (G : Graph) (h : String → ℚ) (u : String) (s : AState)
    (v : String) :
    aRelaxNbr G h u s v = none ∨
    (aRelaxNbr G h u s v = some s ∧
      ∀ a c, G.edata u v = some a → a.weight = some c →
        ¬ s.gs u + (c : Dist) < s.gs v) ∨
    (∃ a c, G.edata u v = some a ∧ a.weight = some c ∧
      s.gs u + (c : Dist) < s.gs v ∧
      aRelaxNbr G h u s v =
        some { gs := fun x => if x = v then s.gs u + (c : Dist) else s.gs x,
               cf := fun x => if x = v then some u else s.cf x,
               pq := s.pq ++ [(s.gs u + (c : Dist) + (h v : Dist), v)] }) := by
  cases he : G.edata u v with
  | none =>
      refine Or.inr (Or.inl ⟨?_, ?_⟩)
      · simp only [aRelaxNbr, he]
      · intro a c ha
        exact Option.noConfusion ha
  | some a =>
      cases hwt : a.weight with
      | none =>
          refine Or.inl ?_
          simp only [aRelaxNbr, he, hwt]
      | some c =>
          by_cases hlt : s.gs u + (c : Dist) < s.gs v
          · refine Or.inr (Or.inr ⟨a, c, rfl, hwt, hlt, ?_⟩)
            simp only [aRelaxNbr, he, hwt]
            rw [if_pos hlt]
          · refine Or.inr (Or.inl ⟨?_, ?_⟩)
            · simp only [aRelaxNbr, he, hwt]
              rw [if_neg hlt]
            · intro a' c' ha' hc'
              injection ha' with ha'
              subst ha'
              rw [hwt] at hc'
              injection hc' with hc'
              subst hc'
              exact hlt

theorem a_update_source_ne {G : Graph} {u v : String} {s : AState} {c : ℚ}
    (hw : ∀ a b, 0 ≤ aw G a b) {a : EdgeAttrs} (he : G.edata u v = some a)
    (hwt : a.weight = some c)
    (hlt : s.gs u + (c : Dist) < s.gs v) : u ≠ v := by
  intro huv
  have h0 : (0 : Dist) ≤ (c : Dist) := by
    have h1 := hw u v
    rw [aw_eq he hwt] at h1
    exact_mod_cast h1
  rw [huv] at hlt
  exact absurd hlt (not_lt.mpr (le_add_of_nonneg_right h0))

theorem a_update_source_fin {u v : String} {s : AState} {c : ℚ}
    (hlt : s.gs u + (c : Dist) < s.gs v) : s.gs u ≠ ⊤ := by
  intro htop
  rw [htop, top_add] at hlt
  exact absurd hlt not_top_lt

theorem aRelaxNbr_inv {G : Graph} {h : String → ℚ} {start u : String}
    (hw : ∀ a b, 0 ≤ aw G a b) {v : String} (hv : v ∈ G.nodes)
    {s s₁ : AState} (hstep : aRelaxNbr G h u s v = some s₁)
    (hI : AInv G h start s) : AInv G h start s₁ := by
  rcases aRelaxNbr_eq G h u s v with hnone | ⟨heq, _⟩ | ⟨a, c, he, hwt, hlt, heq⟩
  · rw [hnone] at hstep; cases hstep
  · rw [heq] at hstep
    injection hstep with hstep
    subst hstep
    exact hI
  · rw [heq] at hstep
    injection hstep with hstep
    subst hstep
    have hne := a_update_source_ne hw he hwt hlt
    have hwa : aw G u v = c := aw_eq he hwt
    have hdu : s.gs u ≠ ⊤ := a_update_source_fin hlt
    have h0 : (0 : Dist) ≤ (c : Dist) := by
      have h1 := hw u v
      rw [hwa] at h1
      exact_mod_cast h1
    constructor
    · intro x y hxy
      dsimp only at hxy ⊢
      by_cases hy : y = v
      · subst hy
        rw [if_pos rfl] at hxy
        injection hxy with hxy
        subst hxy
        rw [he]
        show (a.weight).isSome = true
        rw [hwt]
        rfl
      · rw [if_neg hy] at hxy
        exact hI.links_edge x y hxy
    · intro x y hxy
      dsimp only at hxy ⊢
      by_cases hy : y = v
      · subst hy
        rw [if_pos rfl] at hxy
        injection hxy with hxy
        subst hxy
        rw [if_neg hne, if_pos rfl, hwa]
      · rw [if_neg hy] at hxy
        have hold := hI.links_le x y hxy
        rw [if_neg hy]
        by_cases hx : x = v
        · subst hx
          rw [if_pos rfl]
          calc s.gs u + (c : Dist) + (aw G x y : Dist)
              ≤ s.gs x + (aw G x y : Dist) := add_le_add_right (le_of_lt hlt) _
            _ ≤ s.gs y := hold
        · rw [if_neg hx]
          exact hold
    · intro x y hxy
      dsimp only at hxy ⊢
      by_cases hy : y = v
      · subst hy
        rw [if_pos rfl] at hxy
        injection hxy with hxy
        subst hxy
        rw [if_neg hne]
        exact hdu
      · rw [if_neg hy] at hxy
        by_cases hx : x = v
        · subst hx
          rw [if_pos rfl]
          exact WithTop.add_ne_top.mpr ⟨hdu, WithTop.coe_ne_top⟩
        · rw [if_neg hx]
          exact hI.links_fin x y hxy
    · intro x y hxy
      dsimp only at hxy
      by_cases hy : y = v
      · subst hy; exact hv
      · rw [if_neg hy] at hxy
        exact hI.links_node x y hxy
    · intro e hee
      dsimp only at hee ⊢
      rcases List.mem_append.mp hee with hee | hee
      · rcases hI.pq_ge e hee with hold | hold
        · by_cases hx : e.2 = v
          · rw [hx] at hold ⊢
            rw [if_pos rfl]
            exact Or.inl (le_trans (add_le_add_right (le_of_lt hlt) _) hold)
          · rw [if_neg hx]
            exact Or.inl hold
        · exact Or.inr hold
      · rw [List.mem_singleton] at hee
        subst hee
        rw [if_pos rfl]
        exact Or.inl (le_refl _)
    · dsimp only
      by_cases hs : start = v
      · exfalso
        rw [← hs, hI.start_gs] at hlt
        have : (0 : Dist) ≤ s.gs u + (c : Dist) :=
          add_nonneg (hI.gs_nonneg u) h0
        exact absurd hlt (not_lt.mpr this)
      · rw [if_neg hs]
        exact hI.start_gs
    · dsimp only
      by_cases hs : start = v
      · exfalso
        rw [← hs, hI.start_gs] at hlt
        have : (0 : Dist) ≤ s.gs u + (c : Dist) :=
          add_nonneg (hI.gs_nonneg u) h0
        exact absurd hlt (not_lt.mpr this)
      · rw [if_neg hs]
        exact hI.start_cf
    · intro x hx
      dsimp only at hx ⊢
      by_cases hxv : x = v
      · rw [if_pos hxv] at hx
        cases hx
      · rw [if_neg hxv] at hx
        rw [if_neg hxv]
        exact hI.unrelaxed x hx
    · intro x
      dsimp only
      by_cases hxv : x = v
      · rw [if_pos hxv]
        exact add_nonneg (hI.gs_nonneg u) h0
      · rw [if_neg hxv]
        exact hI.gs_nonneg x

theorem aRelaxNbr_rstale {G : Graph} {h : String → ℚ} {start u : String}
    (hw : ∀ a b, 0 ≤ aw G a b) {v : String}
    {pending : List String} {s s₁ : AState}
    (hstep : aRelaxNbr G h u s v = some s₁) (hI : AInv G h start s)
    (hR : ARStale G h u (v :: pending) s) : ARStale G h u pending s₁ := by
  rcases aRelaxNbr_eq G h u s v with hnone | ⟨heq, hng⟩ | ⟨a, c, he, hwt, hlt, heq⟩
  · rw [hnone] at hstep; cases hstep
  · rw [heq] at hstep
    injection hstep with hstep
    subst hstep
    intro x y hxy hst
    rcases hR x y hxy hst with hpq | ⟨rfl, hy⟩
    · exact Or.inl hpq
    · rcases List.mem_cons.mp hy with rfl | hy'
      · exfalso
        have hedge := hI.links_edge x y hxy
        rw [Option.isSome_iff_exists] at hedge
        obtain ⟨c', hc'⟩ := hedge
        rw [Option.bind_eq_some] at hc'
        obtain ⟨a', ha', hwt'⟩ := hc'
        rw [aw_eq ha' hwt'] at hst
        exact hng a' c' ha' hwt' hst
      · exact Or.inr ⟨rfl, hy'⟩
  · rw [heq] at hstep
    injection hstep with hstep
    subst hstep
    have hne := a_update_source_ne hw he hwt hlt
    have hwa : aw G u v = c := aw_eq he hwt
    intro x y hxy hst
    dsimp only at hxy hst ⊢
    by_cases hy : y = v
    · subst hy
      rw [if_pos rfl] at hxy
      injection hxy with hxy
      subst hxy
      rw [if_neg hne, if_pos rfl, hwa] at hst
      exact absurd hst (lt_irrefl _)
    · rw [if_neg hy] at hxy hst
      by_cases hx : x = v
      · subst hx
        rw [if_pos rfl] at hst ⊢
        refine Or.inl (List.mem_append.mpr (Or.inr ?_))
        rw [List.mem_singleton]
      · rw [if_neg hx] at hst ⊢
        rcases hR x y hxy hst with hpq | ⟨rfl, hy'⟩
        · exact Or.inl (List.mem_append.mpr (Or.inl hpq))
        · rcases List.mem_cons.mp hy' with rfl | hy''
          · exact absurd rfl hy
          · exact Or.inr ⟨rfl, hy''⟩

theorem aRelaxList_inv {G : Graph} {h : String → ℚ} {start u : String}
    (hw : ∀ a b, 0 ≤ aw G a b) :
    ∀ (pending : List String) (s s₂ : AState), (∀ x ∈ pending, x ∈ G.nodes) →
      AInv G h start s → ARStale G h u pending s →
      List.foldlM (aRelaxNbr G h u) s pending = some s₂ →
      AInv G h start s₂ ∧ ARStale G h u [] s₂ := by
  intro pending
  induction pending with
  | nil =>
      intro s s₂ _ hI hR hfold
      injection hfold with hfold
      subst hfold
      exact ⟨hI, hR⟩
  | cons v rest ih =>
      intro s s₂ hmem hI hR hfold
      rw [List.foldlM_cons] at hfold
      rcases hstep : aRelaxNbr G h u s v with _ | s₁
      · rw [hstep] at hfold; cases hfold
      · rw [hstep] at hfold
        exact ih s₁ s₂ (fun x hx => hmem x (List.mem_cons_of_mem v hx))
          (aRelaxNbr_inv hw (hmem v (List.mem_cons_self v rest)) hstep hI)
          (aRelaxNbr_rstale hw hstep hI hR) hfold

/-- Characterisation of the `a_star` reconstruction loop: the appended
list `l` followed by the final `current` value `z` forms a predecessor
chain starting at `cur`, and `z` has no `came_from` entry. -/
theorem aRecon_spec (cf : String → Option String) :
    ∀ (fuel : ℕ) (cur : String) (l : List String) (z : String),
      aRecon cf fuel cur = some (l, z) →
      cf z = none ∧ RevLinks cf (l ++ [z]) ∧ (l ++ [z]).head? = some cur := by
  intro fuel
  induction fuel with
  | zero => intro cur l z h; cases h
  | succ f ih =>
      intro cur l z h
      unfold aRecon at h
      rcases hp : cf cur with _ | p
      · simp only [hp] at h
        injection h with h
        injection h with h1 h2
        subst h1
        subst h2
        refine ⟨hp, ?_, rfl⟩
        intro q hq
        simp at hq
      · simp only [hp] at h
        rcases hrec : aRecon cf f p with _ | pr
        · rw [hrec] at h
          simp at h
        · rw [hrec] at h
          rw [Option.map_some'] at h
          injection h with h
          injection h with h1 h2
          obtain ⟨l', z'⟩ := pr
          dsimp only at h1 h2
          rw [← h1, ← h2]
          obtain ⟨hznone, hlinks, hhead⟩ := ih p l' z' hrec
          refine ⟨hznone, ?_, rfl⟩
          intro q hq
          rw [List.cons_append] at hq
          cases hlz : l' ++ [z'] with
          | nil => exact absurd hlz (by simp)
          | cons b bs =>
              rw [hlz] at hq hlinks
              rw [hlz, List.head?_cons] at hhead
              injection hhead with hhead
              rw [List.tail_cons, List.zip_cons_cons] at hq
              rcases List.mem_cons.mp hq with rfl | hq'
              · rw [hhead]
                exact hp
              · exact hlinks q hq'

theorem ainv_restrict {G : Graph} {h : String → ℚ} {start : String}
    {s : AState} (hI : AInv G h start s) (rest : List (Dist × String))
    (hsub : ∀ e ∈ rest, e ∈ s.pq) :
    AInv G h start { s with pq := rest } :=
  { links_edge := hI.links_edge
    links_le := hI.links_le
    links_fin := hI.links_fin
    links_node := hI.links_node
    pq_ge := fun e he => hI.pq_ge e (hsub e he)
    start_gs := hI.start_gs
    start_cf := hI.start_cf
    unrelaxed := hI.unrelaxed
    gs_nonneg := hI.gs_nonneg }

/-- Every state in which the `a_star` loop breaks at `goal` satisfies
the invariant together with the stale-link `f`-value bound. -/
theorem aLoop_post {G : Graph} {goal : String} {h : String → ℚ} {start : String}
    (hw : ∀ a b, 0 ≤ aw G a b) :
    ∀ (fuel : ℕ) (s s' : AState), AInv G h start s → AStaleWit G h s →
      aLoop G goal h fuel s = some (some s') →
      AInv G h start s' ∧ ABreakFacts G h goal start s' := by
  intro fuel
  induction fuel with
  | zero => intro s s' _ _ hl; cases hl
  | succ f ih =>
      intro s s' hI hSW hl
      unfold aLoop at hl
      rcases hpop : popMin s.pq with _ | ⟨⟨d, u⟩, rest⟩
      · simp only [hpop] at hl
        injection hl with hl
        cases hl
      · simp only [hpop] at hl
        obtain ⟨hm, hrest, hmin⟩ := popMin_spec s.pq (d, u) rest hpop
        by_cases hend : u = goal
        · rw [if_pos hend] at hl
          injection hl with hl
          injection hl with hl
          subst hl
          refine ⟨ainv_restrict hI rest (fun e he => List.mem_of_mem_erase (hrest ▸ he)), ?_⟩
          intro x y hxy hst
          have hwit : (s.gs x + (h x : Dist), x) ∈ s.pq := hSW x y hxy hst
          have hdx : d ≤ s.gs x + (h x : Dist) :=
            entryLE_fst (hmin (s.gs x + (h x : Dist), x) hwit)
          rcases hI.pq_ge (d, u) hm with hdg | hgs
          · rw [hend] at hdg
            exact Or.inl (le_trans hdg hdx)
          · rw [hend] at hgs
            exact Or.inr hgs
        · rw [if_neg hend] at hl
          have hI' : AInv G h start { s with pq := rest } :=
            ainv_restrict hI rest (fun e he => List.mem_of_mem_erase (hrest ▸ he))
          have hR : ARStale G h u (nbrs G u) { s with pq := rest } := by
            intro x y hxy hst
            have hwit : (s.gs x + (h x : Dist), x) ∈ s.pq := hSW x y hxy hst
            by_cases hxu : x = u
            · subst hxu
              refine Or.inr ⟨rfl, ?_⟩
              unfold nbrs
              rw [List.mem_filter]
              refine ⟨hI.links_node x y hxy, ?_⟩
              have hbw := hI.links_edge x y hxy
              cases hed : G.edata x y with
              | none => rw [hed] at hbw; cases hbw
              | some a => rfl
            · refine Or.inl ?_
              have hne : (s.gs x + (h x : Dist), x) ≠ (d, u) := by
                intro hcontra
                injection hcontra with _ h2
                exact hxu h2
              show (s.gs x + (h x : Dist), x) ∈ rest
              rw [hrest]
              exact (List.mem_erase_of_ne hne).mpr hwit
          rcases hfold : aRelaxAll G h u { s with pq := rest } with _ | s₂
          · rw [hfold] at hl
            cases hl
          · rw [hfold] at hl
            obtain ⟨h2, hR0⟩ := aRelaxList_inv hw (nbrs G u) { s with pq := rest } s₂
              (fun x hx => List.mem_of_mem_filter hx) hI' hR hfold
            refine ih s₂ s' h2 ?_ hl
            intro x y hxy hst
            rcases hR0 x y hxy hst with hpq | ⟨_, hb⟩
            · exact hpq
            · cases hb

/-- If `current` has no `came_from` entry the reconstruction loop body
never runs, so the appended list is empty. -/
theorem aRecon_start_nil {cf : String → Option String} {cur : String}
    (hc : cf cur = none) :
    ∀ (fuel : ℕ) (l : List String) (z : String),
      aRecon cf fuel cur = some (l, z) → l = [] := by
  intro fuel l z h
  cases fuel with
  | zero => cases h
  | succ f =>
      unfold aRecon at h
      simp only [hc] at h
      injection h with h
      injection h with h1 _
      exact h1.symm

/-- Functional correctness of `a_star` for returned paths of at least
two nodes, under nonnegative weights, a nonnegative heuristic and
admissibility (the heuristic is a lower bound on the weight of every
path to the goal): consecutive pairs are weighted edges of the graph
and the returned cost is the sum of their weights. -/
theorem a_star_path_spec (G : Graph) (start goal : String) (h : String → ℚ)
    (fuel : ℕ) (path : List String) (c : Dist)
    (hw : ∀ a b, 0 ≤ aw G a b) (hh : ∀ x, 0 ≤ h x)
    (hadm : ∀ (x : String) (l : List String), l.head? = some x →
      l.getLast? = some goal →
      (∀ p ∈ l.zip l.tail, ((G.edata p.1 p.2).bind EdgeAttrs.weight).isSome) →
      h x ≤ sumW (aw G) (l.zip l.tail))
    (hret : a_star G start goal h fuel = some (some path, c))
    (hlen : 2 ≤ path.length) :
    (∀ p ∈ path.zip path.tail, ((G.edata p.1 p.2).bind EdgeAttrs.weight).isSome) ∧
      c = (sumW (aw G) (path.zip path.tail) : Dist) := by
  unfold a_star at hret
  rcases hloop : aLoop G goal h fuel
      { gs := fun v => if v = start then 0 else ⊤,
        cf := fun _ => none,
        pq := [((0 : Dist), start)] } with _ | os
  · simp only [hloop] at hret
    exact Option.noConfusion hret
  · simp only [hloop] at hret
    rcases os with _ | s
    · injection hret with hret
      injection hret with h1 h2
      exact Option.noConfusion h1
    · rcases hrec : aRecon s.cf fuel goal with _ | ⟨l, z⟩
      · simp only [hrec] at hret
        exact Option.noConfusion hret
      · simp only [hrec] at hret
        injection hret with hret
        injection hret with hpath hc
        injection hpath with hpath
        have hI0 : AInv G h start
            { gs := fun v => if v = start then 0 else ⊤,
              cf := fun _ => none,
              pq := [((0 : Dist), start)] } := by
          constructor
          · intro u v hv; cases hv
          · intro u v hv; cases hv
          · intro u v hv; cases hv
          · intro u v hv; cases hv
          · intro e he
            rw [List.mem_singleton] at he
            subst he
            exact Or.inr rfl
          · simp
          · rfl
          · intro v _; rfl
          · intro v
            dsimp only
            split_ifs
            · exact le_refl _
            · exact le_top
        have hSW0 : AStaleWit G h
            { gs := fun v => if v = start then 0 else ⊤,
              cf := fun _ => none,
              pq := [((0 : Dist), start)] } := by
          intro u v hv; cases hv
        obtain ⟨hI, hBF⟩ := aLoop_post hw fuel _ s hI0 hSW0 hloop
        obtain ⟨hznone, hlinks, hhead⟩ := aRecon_spec s.cf fuel goal l z hrec
        have hlen' : 2 ≤ l.length + 1 := by
          rw [← hpath, List.length_reverse, List.length_append] at hlen
          simpa using hlen
        have hlne : l ≠ [] := by
          intro h0
          rw [h0] at hlen'
          simp at hlen'
        have hzs : z = start := by
          have hL2 : 2 ≤ (l ++ [z]).length := by
            rw [List.length_append]
            simpa using hlen'
          obtain ⟨y, hy⟩ := getLast_pair (l ++ [z]) z hL2 (List.getLast?_concat l)
          have hlinkyz : s.cf y = some z := hlinks (y, z) hy
          have hfin := hI.links_fin z y hlinkyz
          have hur := hI.unrelaxed z hznone
          by_cases hzs : z = start
          · exact hzs
          · rw [hur, if_neg hzs] at hfin
            exact absurd rfl hfin
        subst hzs
        have hex : ∀ p ∈ (l ++ [z]).zip (l ++ [z]).tail,
            s.gs p.1 = s.gs p.2 + (aw G p.2 p.1 : Dist) := by
          intro p hp
          have hlink : s.cf p.1 = some p.2 := hlinks p hp
          refine (le_antisymm (hI.links_le p.2 p.1 hlink) (not_lt.mp ?_)).symm
          intro hst
          rcases hBF p.2 p.1 hlink hst with hbound | hgs
          swap
          · rw [hgs] at hrec
            exact hlne (aRecon_start_nil hI.start_cf fuel l z hrec)
          obtain ⟨pp, hpph, hppl, hppE, hpps⟩ :=
            revchain_paths s.cf s.gs (aw G)
              (fun a b => ((G.edata a b).bind EdgeAttrs.weight).isSome)
              hI.links_le hI.links_edge (l ++ [z]) goal hhead hlinks
              p.1 (List.mem_zip hp).1
          cases pp with
          | nil => cases hpph
          | cons b bs =>
              injection hpph with hpph
              subst hpph
              have hqlast : (p.2 :: p.1 :: bs).getLast? = some goal := by
                rw [List.getLast?_cons_cons]
                exact hppl
              have hqedges : ∀ q ∈ (p.2 :: p.1 :: bs).zip (p.2 :: p.1 :: bs).tail,
                  ((G.edata q.1 q.2).bind EdgeAttrs.weight).isSome := by
                intro q hq
                rw [List.tail_cons, List.zip_cons_cons] at hq
                rcases List.mem_cons.mp hq with rfl | hq'
                · exact hI.links_edge p.2 p.1 hlink
                · exact hppE q hq'
              have hadm' := hadm p.2 (p.2 :: p.1 :: bs) rfl hqlast hqedges
              have hsum : sumW (aw G) ((p.2 :: p.1 :: bs).zip (p.2 :: p.1 :: bs).tail) =
                  aw G p.2 p.1 + sumW (aw G) ((p.1 :: bs).zip (p.1 :: bs).tail) := by
                rw [List.tail_cons, List.zip_cons_cons]
                unfold sumW
                rw [List.map_cons, List.sum_cons]
                rfl
              rw [hsum] at hadm'
              set S := sumW (aw G) ((p.1 :: bs).zip (p.1 :: bs).tail) with hS
              have hchain : s.gs p.2 + ((aw G p.2 p.1 + S : ℚ) : Dist) <
                  s.gs p.2 + ((aw G p.2 p.1 + S : ℚ) : Dist) := by
                calc s.gs p.2 + ((aw G p.2 p.1 + S : ℚ) : Dist)
                    = s.gs p.2 + (aw G p.2 p.1 : Dist) + (S : Dist) := by
                      rw [WithTop.coe_add, add_assoc]
                  _ < s.gs p.1 + (S : Dist) :=
                      WithTop.add_lt_add_right WithTop.coe_ne_top hst
                  _ ≤ s.gs goal := hpps
                  _ ≤ s.gs goal + (h goal : Dist) := by
                      refine le_add_of_nonneg_right ?_
                      exact_mod_cast hh goal
                  _ ≤ s.gs p.2 + (h p.2 : Dist) := hbound
                  _ ≤ s.gs p.2 + ((aw G p.2 p.1 + S : ℚ) : Dist) := by
                      refine add_le_add_left ?_ _
                      exact_mod_cast hadm'
              exact absurd hchain (lt_irrefl _)
        have htel := revchain_telescope s.gs (aw G) (l ++ [z]) goal z
          hhead (List.getLast?_concat l) hex
        constructor
        · intro p hp
          rw [← hpath] at hp
          rw [pairs_reverse, List.mem_reverse, List.mem_map] at hp
          obtain ⟨q, hq, rfl⟩ := hp
          exact hI.links_edge q.2 q.1 (hlinks q hq)
        · rw [← hc, htel, hI.start_gs, zero_add, ← hpath, sumW_reverse]

/-! ### Concrete instances

A fixture mirroring the repository's own no-path test
(`src/tests/test_algorithms/test_dijkstra.py::test_dijkstra_no_path`):
nodes `1,2,3` connected by weighted roads, node `4` isolated. -/

def sampleGraph : Graph :=
  { nodes := ["1", "2", "3", "4"],
    edata := fun a b =>
      if (a = "1" ∧ b = "2") ∨ (a = "2" ∧ b = "1") then some ⟨some 5, some 10⟩
      else if (a = "2" ∧ b = "3") ∨ (a = "3" ∧ b = "2") then some ⟨some 3, some 10⟩
      else if (a = "1" ∧ b = "3") ∨ (a = "3" ∧ b = "1") then some ⟨some 4, some 10⟩
      else none }

theorem sampleGraph_wfun_nonneg : ∀ a b, 0 ≤ wfun sampleGraph false (3/10) a b := by
  intro a b
  unfold wfun sampleGraph
  dsimp only
  split_ifs <;> norm_num [dijWeight]

theorem sampleGraph_aw_nonneg : ∀ a b, 0 ≤ aw sampleGraph a b := by
  intro a b
  unfold aw sampleGraph
  dsimp only
  split_ifs <;> norm_num

unseal Rat.add Rat.mul Rat.inv Rat.sub in
/-- C2: for source and destination in disjoint components the claimed
sentinel is `([], ∞)`, but `dijkstra_shortest_path` actually returns
the one-node path `[end]` together with infinity (the reconstruction
loop appends `end` before consulting `previous`), contradicting the
claim and the repository's own test, which asserts `len(path) == 0`;
for a destination absent from the graph the reconstruction raises
`KeyError` (modelled `none`) instead of returning a sentinel.  The A*
nearest-facility search does return `(None, ∞, None)` as claimed, both
for an unreachable hospital and for one absent from the graph. -/
theorem C2_no_path_sentinel_violated :
    (dijkstra_shortest_path sampleGraph "1" "4" false (3/10) 30 =
        some (["4"], ⊤) ∧ (["4"] : List String) ≠ []) ∧
    dijkstra_shortest_path sampleGraph "1" "9" false (3/10) 30 = none ∧
    find_nearest_hospital sampleGraph "1" [("4", "H4"), ("9", "H9")]
        (fun _ _ => 0) 30 = some (none, ⊤, none) := by
  refine ⟨⟨by decide, by decide⟩, by decide, by decide⟩

/-- C3: for every `(path, cost)` returned by `dijkstra_shortest_path`
(assuming the search weights are nonnegative) or by `a_star` (assuming
nonnegative edge weights, a nonnegative heuristic and the
admissibility bound required by the spec for the heuristic) with at
least two nodes, every consecutive pair is an edge of the searched
graph (carrying a `weight` attribute in the `a_star` case), and the
cost equals the sum of the edge weights along the path under the
weight function used for that search. -/
theorem C3_path_validity :
    (∀ (G : Graph) (start endNode : String) (crc : Bool) (cw : ℚ) (fuel : ℕ)
        (path : List String) (c : Dist),
        (∀ a b, 0 ≤ wfun G crc cw a b) →
        dijkstra_shortest_path G start endNode crc cw fuel = some (path, c) →
        2 ≤ path.length →
        (∀ p ∈ path.zip path.tail, (G.edata p.1 p.2).isSome) ∧
          c = (sumW (wfun G crc cw) (path.zip path.tail) : Dist)) ∧
    (∀ (G : Graph) (start goal : String) (h : String → ℚ) (fuel : ℕ)
        (path : List String) (c : Dist),
        (∀ a b, 0 ≤ aw G a b) → (∀ x, 0 ≤ h x) →
        (∀ (x : String) (l : List String), l.head? = some x →
          l.getLast? = some goal →
          (∀ p ∈ l.zip l.tail, ((G.edata p.1 p.2).bind EdgeAttrs.weight).isSome) →
          h x ≤ sumW (aw G) (l.zip l.tail)) →
        a_star G start goal h fuel = some (some path, c) →
        2 ≤ path.length →
        (∀ p ∈ path.zip path.tail, ((G.edata p.1 p.2).bind EdgeAttrs.weight).isSome) ∧
          c = (sumW (aw G) (path.zip path.tail) : Dist)) :=
  ⟨fun G start endNode crc cw fuel path c hw h hlen =>
      dijkstra_path_spec G start endNode crc cw fuel path c hw h hlen,
    fun G start goal h fuel path c hw hh hadm hret hlen =>
      a_star_path_spec G start goal h fuel path c hw hh hadm hret hlen⟩

unseal Rat.add Rat.mul Rat.inv Rat.sub in
/-- Witness: both halves of `C3_path_validity` applied to the sample
graph's run from `1` to `3`, which returns `(["1","3"], 4)`. -/
theorem C3_path_validity_witness :
    ((∀ p ∈ (["1", "3"] : List String).zip (["1", "3"] : List String).tail,
        (sampleGraph.edata p.1 p.2).isSome) ∧
      ((4 : Dist) =
        (sumW (wfun sampleGraph false (3/10))
          ((["1", "3"] : List String).zip (["1", "3"] : List String).tail) : Dist))) ∧
    ((∀ p ∈ (["1", "3"] : List String).zip (["1", "3"] : List String).tail,
        ((sampleGraph.edata p.1 p.2).bind EdgeAttrs.weight).isSome) ∧
      ((4 : Dist) =
        (sumW (aw sampleGraph)
          ((["1", "3"] : List String).zip (["1", "3"] : List String).tail) : Dist))) :=
  ⟨C3_path_validity.1 sampleGraph "1" "3" false (3/10) 30 ["1", "3"] 4
      sampleGraph_wfun_nonneg (by decide) (by decide),
    C3_path_validity.2 sampleGraph "1" "3" (fun _ => 0) 30 ["1", "3"] 4
      sampleGraph_aw_nonneg (fun _ => le_refl 0)
      (fun x l _ _ _ => sumW_nonneg (aw sampleGraph) sampleGraph_aw_nonneg (l.zip l.tail))
      (by decide) (by decide)⟩

end PathSearch

namespace Multimodal

/-! ## `_find_optimal_path` (src/controller/controller.py, lines 853-889)

The multimodal transit graph is an `nx.MultiGraph`; `edata u v` is the
list of parallel edges between `u` and `v` (`[]` = no edge), and the
search weight reads `d[0]`, the first parallel edge.  `nx.shortest_path`
is an external library call; it is modelled from the networkx contract
as a minimiser of the total edge weight over source-to-destination
(simple) paths. -/

structure MEdgeData where
  type : String
  route_id : String
  interval : ℚ
  travel_time : ℚ
  deriving DecidableEq

structure MGraph where
  nodes : List String
  edata : String → String → List MEdgeData

/-- The inner `edge_weight(u, v, data)` of `_find_optimal_path`:
`base_time = travel_time + interval/2`, then `*= 1.5` under
`prefer_metro` for bus edges, then `*= 2` under `minimize_transfers`
for transfer edges. -/
def edge_weight (prefer_metro minimize_transfers : Bool) (d : MEdgeData) : ℚ :=
  let base_time := d.travel_time + d.interval / 2
  let base_time := if prefer_metro ∧ d.type = "bus" then base_time * (3/2) else base_time
  if minimize_transfers ∧ d.type = "transfer" then base_time * 2 else base_time

/-- The weight handed to the search:
`lambda u, v, d: edge_weight(u, v, d[0])`. -/
def mweight (G : MGraph) (pm mt : Bool) (u v : String) : ℚ :=
  match (G.edata u v).head? with
  | some d => edge_weight pm mt d
  | none => 0

def pathWeight (w : String → String → ℚ) (l : List String) : ℚ :=
  PathSearch.sumW w (l.zip l.tail)

/-- All simple paths from `cur` to `dest` whose intermediate nodes are
drawn (without repetition) from `avail`; the fuel argument only needs
to exceed `avail.length`. -/
def pathsFrom (adj : String → String → Bool) (dest : String) :
    ℕ → List String → String → List (List String)
  | 0, _, _ => []
  | fuel + 1, avail, cur =>
      if cur = dest then [[cur]]
      else
        (avail.filter (fun v => adj cur v)).flatMap
          (fun v => (pathsFrom adj dest fuel (avail.erase v) v).map
            (fun l => cur :: l))

theorem pathsFrom_sound (adj : String → String → Bool) (dest : String) :
    ∀ (fuel : ℕ) (avail : List String) (cur : String) (l : List String),
      l ∈ pathsFrom adj dest fuel avail cur →
      l.head? = some cur ∧ l.getLast? = some dest ∧
        ∀ p ∈ l.zip l.tail, adj p.1 p.2 = true := by
  intro fuel
  induction fuel with
  | zero => intro avail cur l h; cases h
  | succ f ih =>
      intro avail cur l h
      unfold pathsFrom at h
      split_ifs at h with hcd
      · rw [List.mem_singleton] at h
        subst h
        subst hcd
        refine ⟨rfl, rfl, ?_⟩
        intro p hp
        simp at hp
      · rw [List.mem_flatMap] at h
        obtain ⟨v, hv, hmem⟩ := h
        rw [List.mem_map] at hmem
        obtain ⟨l', hl', rfl⟩ := hmem
        obtain ⟨hh', hl'', hch⟩ := ih (avail.erase v) v l' hl'
        refine ⟨rfl, ?_, ?_⟩
        · cases l' with
          | nil => cases hh'
          | cons b bs =>
              rw [List.getLast?_cons_cons]
              exact hl''
        · intro p hp
          cases l' with
          | nil => cases hh'
          | cons b bs =>
              rw [List.tail_cons, List.zip_cons_cons] at hp
              rcases List.mem_cons.mp hp with rfl | hp'
              · injection hh' with hh'
                subst hh'
                exact (List.mem_filter.mp hv).2
              · exact hch p hp'

theorem pathsFrom_complete (adj : String → String → Bool) (dest : String) :
    ∀ (fuel : ℕ) (avail : List String) (cur : String) (q : List String),
      avail.length < fuel →
      q.head? = some cur → q.getLast? = some dest →
      (∀ p ∈ q.zip q.tail, adj p.1 p.2 = true) →
      q.Nodup → (∀ x ∈ q.tail, x ∈ avail) →
      q ∈ pathsFrom adj dest fuel avail cur := by
  intro fuel
  induction fuel with
  | zero => intro avail cur q hf; omega
  | succ f ih =>
      intro avail cur q hf hqh hql hedges hnd htl
      cases q with
      | nil => cases hqh
      | cons a rest =>
          injection hqh with hqh
          subst hqh
          unfold pathsFrom
          by_cases hcd : a = dest
          · rw [if_pos hcd]
            have hrest : rest = [] := by
              cases rest with
              | nil => rfl
              | cons b bs =>
                  exfalso
                  rw [List.getLast?_cons_cons] at hql
                  have hdm : dest ∈ b :: bs := List.mem_of_mem_getLast? hql
                  rw [List.nodup_cons] at hnd
                  rw [hcd] at hnd
                  exact hnd.1 hdm
            subst hrest
            rw [List.mem_singleton]
          · rw [if_neg hcd]
            cases rest with
            | nil =>
                exfalso
                have : a = dest := by simpa using hql
                exact hcd this
            | cons v rest' =>
                rw [List.mem_flatMap]
                have hvav : v ∈ avail := htl v (List.mem_cons_self v rest')
                have hadj : adj a v = true :=
                  hedges (a, v) (List.mem_cons_self _ _)
                refine ⟨v, List.mem_filter.mpr ⟨hvav, hadj⟩, ?_⟩
                rw [List.mem_map]
                refine ⟨v :: rest', ?_, rfl⟩
                have hnd' : (v :: rest').Nodup := hnd.of_cons
                refine ih (avail.erase v) v (v :: rest') ?_ rfl ?_ ?_ hnd' ?_
                · have h1 : (avail.erase v).length = avail.length - 1 :=
                    List.length_erase_of_mem hvav
                  have h2 : 0 < avail.length := List.length_pos_of_mem hvav
                  omega
                · rw [List.getLast?_cons_cons] at hql
                  exact hql
                · intro p hp
                  refine hedges p ?_
                  rw [List.tail_cons, List.zip_cons_cons]
                  exact List.mem_cons_of_mem (a, v) hp
                · intro x hx
                  rw [List.tail_cons] at hx
                  have hxav : x ∈ avail :=
                    htl x (List.mem_cons_of_mem v hx)
                  have hxv : x ≠ v := by
                    intro hxv
                    rw [List.nodup_cons] at hnd'
                    rw [hxv] at hx
                    exact hnd'.1 hx
                  exact (List.mem_erase_of_ne hxv).mpr hxav

/-- The minimiser networkx returns: first enumerated path of minimal
total weight. -/
def argminPath (w : List String → ℚ) : List (List String) → Option (List String)
  | [] => none
  | p :: ps => some (ps.foldl (fun best q => if w q < w best then q else best) p)

theorem argminFold_mem (w : List String → ℚ) :
    ∀ (ps : List (List String)) (p : List String),
      ps.foldl (fun best q => if w q < w best then q else best) p = p ∨
        ps.foldl (fun best q => if w q < w best then q else best) p ∈ ps := by
  intro ps
  induction ps with
  | nil => intro p; exact Or.inl rfl
  | cons y rest ih =>
      intro p
      rw [List.foldl_cons]
      by_cases hc : w y < w p
      · rw [if_pos hc]
        rcases ih y with h' | h'
        · refine Or.inr ?_
          rw [h']
          exact List.mem_cons_self y rest
        · exact Or.inr (List.mem_cons_of_mem y h')
      · rw [if_neg hc]
        rcases ih p with h' | h'
        · exact Or.inl h'
        · exact Or.inr (List.mem_cons_of_mem y h')

theorem argminFold_le (w : List String → ℚ) :
    ∀ (ps : List (List String)) (p : List String),
      ∀ z ∈ p :: ps,
        w (ps.foldl (fun best q => if w q < w best then q else best) p) ≤ w z := by
  intro ps
  induction ps with
  | nil =>
      intro p z hz
      rcases List.mem_cons.mp hz with rfl | h
      · exact le_refl _
      · cases h
  | cons y rest ih =>
      intro p z hz
      rw [List.foldl_cons]
      have hseed : ∀ q, w (rest.foldl (fun best q => if w q < w best then q else best) q) ≤ w q :=
        fun q => ih q q (List.mem_cons_self q rest)
      by_cases hc : w y < w p
      · rw [if_pos hc]
        rcases List.mem_cons.mp hz with rfl | hz'
        · exact le_trans (hseed y) (le_of_lt hc)
        · rcases List.mem_cons.mp hz' with rfl | hz''
          · exact hseed z
          · exact ih y z (List.mem_cons_of_mem y hz'')
      · rw [if_neg hc]
        rcases List.mem_cons.mp hz with rfl | hz'
        · exact hseed z
        · rcases List.mem_cons.mp hz' with rfl | hz''
          · exact le_trans (hseed p) (not_lt.mp hc)
          · exact ih p z (List.mem_cons_of_mem p hz'')

theorem argminPath_mem (w : List String → ℚ) (L : List (List String))
    (p : List String) (h : argminPath w L = some p) : p ∈ L := by
  cases L with
  | nil => cases h
  | cons q ps =>
      unfold argminPath at h
      injection h with h
      rcases argminFold_mem w ps q with h' | h'
      · rw [← h, h']
        exact List.mem_cons_self q ps
      · rw [← h]
        exact List.mem_cons_of_mem q h'

theorem argminPath_le (w : List String → ℚ) (L : List (List String))
    (p : List String) (h : argminPath w L = some p) : ∀ q ∈ L, w p ≤ w q := by
  cases L with
  | nil => cases h
  | cons r ps =>
      unfold argminPath at h
      injection h with h
      intro q hq
      rw [← h]
      exact argminFold_le w ps r q hq

/-- Modelled from the networkx contract (external library):
`nx.shortest_path(graph, source, destination, weight=...)` returns a
source-to-destination path minimising the total weight, or raises
`NetworkXNoPath` (modelled `none`). -/
def nx_shortest_path (G : MGraph) (pm mt : Bool) (src dst : String) :
    Option (List String) :=
  argminPath (pathWeight (mweight G pm mt))
    (pathsFrom (fun u v => !(G.edata u v).isEmpty) dst (G.nodes.length + 1)
      (G.nodes.erase src) src)

/-- Embedding of `_find_optimal_path`: the shortest-path call followed
by the `graph.has_edge(path[i], path[i+1])` validity loop; `none`
models the raised `ValueError`. -/
def _find_optimal_path (G : MGraph) (source destination : String)
    (prefer_metro minimize_transfers : Bool) : Option (List String) :=
  match nx_shortest_path G prefer_metro minimize_transfers source destination with
  | none => none
  | some path =>
      if (path.zip path.tail).all (fun p => !(G.edata p.1 p.2).isEmpty) then some path
      else none

/-- A small multimodal fixture: bus edges `S-A-D` (travel 4,
interval 2) and a direct metro edge `S-D` (travel 20, interval 4). -/
def mGraph : MGraph :=
  { nodes := ["S", "A", "D"],
    edata := fun u v =>
      if (u = "S" ∧ v = "A") ∨ (u = "A" ∧ v = "S") then [⟨"bus", "B1", 2, 4⟩]
      else if (u = "A" ∧ v = "D") ∨ (u = "D" ∧ v = "A") then [⟨"bus", "B1", 2, 4⟩]
      else if (u = "S" ∧ v = "D") ∨ (u = "D" ∧ v = "S") then [⟨"metro", "M1", 4, 20⟩]
      else [] }

/-- C6: the search weight used by `_find_optimal_path` equals
`(travel_time + interval/2)`, multiplied by `1.5` exactly when
`prefer_metro` is set and the edge type is `"bus"`, and by `2` exactly
when `minimize_transfers` is set and the edge type is `"transfer"`;
and every returned path is a source-to-destination path minimising the
sum of these weights over all (simple) source-to-destination paths in
the multimodal graph. -/
theorem C6_multimodal_weight :
    (∀ (pm mt : Bool) (d : MEdgeData),
        edge_weight pm mt d =
          (d.travel_time + d.interval / 2) *
            (if pm ∧ d.type = "bus" then 3/2 else 1) *
            (if mt ∧ d.type = "transfer" then 2 else 1)) ∧
    (∀ (G : MGraph) (src dst : String) (pm mt : Bool) (path : List String),
        _find_optimal_path G src dst pm mt = some path →
        (path.head? = some src ∧ path.getLast? = some dst ∧
          ∀ p ∈ path.zip path.tail, G.edata p.1 p.2 ≠ []) ∧
        ∀ q : List String, q.head? = some src → q.getLast? = some dst →
          q.Nodup → (∀ x ∈ q, x ∈ G.nodes) →
          (∀ p ∈ q.zip q.tail, G.edata p.1 p.2 ≠ []) →
          pathWeight (mweight G pm mt) path ≤ pathWeight (mweight G pm mt) q) := by
  constructor
  · intro pm mt d
    unfold edge_weight
    dsimp only
    split_ifs <;> ring
  · intro G src dst pm mt path h
    unfold _find_optimal_path at h
    rcases hnx : nx_shortest_path G pm mt src dst with _ | p0
    · simp only [hnx] at h
      exact Option.noConfusion h
    · simp only [hnx] at h
      split_ifs at h with hck
      · injection h with h
        subst h
        unfold nx_shortest_path at hnx
        have hmem := argminPath_mem _ _ _ hnx
        obtain ⟨hh, hl, hc⟩ := pathsFrom_sound _ _ _ _ _ _ hmem
        constructor
        · refine ⟨hh, hl, ?_⟩
          intro p hp
          have h3 := hc p hp
          rw [Bool.not_eq_true'] at h3
          exact List.isEmpty_eq_false.mp h3
        · intro q hqh hql hqn hqm hqe
          have hadjq : ∀ p ∈ q.zip q.tail,
              (!(G.edata p.1 p.2).isEmpty) = true := by
            intro p hp
            rw [Bool.not_eq_true']
            exact List.isEmpty_eq_false.mpr (hqe p hp)
          have htlq : ∀ x ∈ q.tail, x ∈ G.nodes.erase src := by
            cases q with
            | nil => intro x hx; cases hx
            | cons a t =>
                have ha : a = src := by injection hqh
                intro x hx
                rw [List.tail_cons] at hx
                refine (List.mem_erase_of_ne ?_).mpr
                  (hqm x (List.mem_cons_of_mem a hx))
                intro hxs
                rw [List.nodup_cons] at hqn
                refine hqn.1 ?_
                rw [ha, ← hxs]
                exact hx
          have hq := pathsFrom_complete (fun u v => !(G.edata u v).isEmpty) dst
            (G.nodes.length + 1) (G.nodes.erase src) src q
            (Nat.lt_succ_of_le (List.length_erase_le src G.nodes))
            hqh hql hadjq hqn htlq
          exact argminPath_le _ _ _ hnx q hq

unseal Rat.add Rat.mul Rat.inv Rat.sub in
/-- Witness: on the fixture the search returns the two-leg bus route
`S-A-D` (total weight 10), which is no heavier than the direct metro
path `S-D` (weight 22). -/
theorem C6_multimodal_weight_witness :
    pathWeight (mweight mGraph false false) ["S", "A", "D"] ≤
      pathWeight (mweight mGraph false false) ["S", "D"] :=
  (C6_multimodal_weight.2 mGraph "S" "D" false false ["S", "A", "D"]
      (by decide)).2 ["S", "D"] (by decide) (by decide) (by decide)
    (by decide) (by decide)

end Multimodal
